import Mathlib

/-
Verification development for the SAP datasheet filter repository.

The definitions below are a shallow embedding of the hierarchy builder and
the ordered flattener of src/sequential_processor.py (functions
build_hierarchy_structure, write_hierarchy_ordered, write_deeper_levels),
of the level and field extraction of src/simple_excel_processor.py
(function process_aptive_to_bom), and of the identifier and unit extraction
shared by the processor variants.

Modelling conventions: a pandas cell is a value of type Cell (blank, an
integer valued number, or text); machine integers of the program are
modelled as Nat (levels and item numbers of the program are non negative);
worksheet rows written by the program are values of type Row recording the
cells the program writes (columns E, L, N, O, P) plus the row kind given by
the code path that wrote the row.  Recursions of the source that are not
structural (building a node from a start index, rendering decimal digits)
take an explicit fuel argument; a fuel of list length, respectively
successor of the number, is proved sufficient by the congruence lemmas
further down, so each function is total and computable.
-/

namespace SAP

/-- One extracted record, holding the fields that build_hierarchy_structure
of src/sequential_processor.py stores in its items list (level, art_nr,
unit, quantity); the children field of the Python dict is recomputed from
record positions by childrenIdx below. -/
structure Item where
  level : Nat
  art_nr : String
  unit : String
  quantity : String
deriving DecidableEq, Repr

instance : Inhabited Item := ⟨⟨0, "", "", ""⟩⟩

/-- Record at position i of the extracted list (out of range positions give
the default record; they are never reached on the paths the program takes). -/
def itemAt (items : List Item) (i : Nat) : Item := items.getD i default

/-- The inner scanning loop of build_hierarchy_structure (lines 127 to 133):
walk the records after the current one, collect every index whose level is
the current level plus one, stop at the first index whose level is at most
the current level, and skip all other indices.  The argument j is the
absolute index of the head of the remaining list. -/
def collectKids (lvl : Nat) : Nat → List Item → List Nat
  | _, [] => []
  | j, it :: rest =>
    if it.level = lvl + 1 then j :: collectKids lvl (j + 1) rest
    else if it.level ≤ lvl then []
    else collectKids lvl (j + 1) rest

/-- Indices of the direct children that build_hierarchy_structure assigns to
the record at index i. -/
def childrenIdx (items : List Item) (i : Nat) : List Nat :=
  collectKids (itemAt items i).level (i + 1) (items.drop (i + 1))

/-- One node of the built hierarchy: a record together with its ordered
direct children, as in the nested children lists of the Python dicts. -/
inductive Node where
  | mk : Item → List Node → Node

instance : Inhabited Node := ⟨.mk default []⟩

def Node.item : Node → Item
  | .mk it _ => it

def Node.children : Node → List Node
  | .mk _ cs => cs

/-- Fueled construction of the node rooted at index i; children indices are
strictly larger than i, so a fuel of the list length always suffices
(lemma buildNodeF_congr below). -/
def buildNodeF (items : List Item) : Nat → Nat → Node
  | 0, i => .mk (itemAt items i) []
  | fuel + 1, i => .mk (itemAt items i) ((childrenIdx items i).map (buildNodeF items fuel))

/-- The node rooted at index i. -/
def bNode (items : List Item) (i : Nat) : Node := buildNodeF items items.length i

/-- Indices of the level 1 records, in source order (line 136 of
src/sequential_processor.py returns exactly the level 1 items). -/
def rootIdx (items : List Item) : List Nat :=
  (List.range items.length).filter (fun i => (itemAt items i).level == 1)

/-- The forest returned by build_hierarchy_structure: one tree per level 1
record, in source order. -/
def build_hierarchy_structure (items : List Item) : List Node :=
  (rootIdx items).map (bNode items)

/-- Fueled list of all indices in the subtree rooted at index i (the root
index first, then the subtrees of the children in order). -/
def subtreeIdxF (items : List Item) : Nat → Nat → List Nat
  | 0, i => [i]
  | fuel + 1, i => i :: (childrenIdx items i).flatMap (subtreeIdxF items fuel)

/-- All indices in the subtree rooted at index i. -/
def subtreeIdx (items : List Item) (i : Nat) : List Nat :=
  subtreeIdxF items items.length i

/-- All indices reachable from some level 1 root. -/
def reachIdx (items : List Item) : List Nat :=
  (rootIdx items).flatMap (subtreeIdx items)

/-- Fueled decimal digit rendering of a natural number, least significant
digit last; models the Python str of an int.  A fuel above the number is
proved sufficient below. -/
def natDigitsF : Nat → Nat → List Char
  | 0, _ => []
  | fuel + 1, n =>
    if n < 10 then [Nat.digitChar n]
    else natDigitsF fuel (n / 10) ++ [Nat.digitChar (n % 10)]

/-- Decimal rendering of a natural number, modelling str of a Python int. -/
def natStr (n : Nat) : String := ⟨natDigitsF (n + 1) n⟩

/-- Zero padding to a minimal width of four characters: the Python format
specification 04d used for the item number column. -/
def pad4 (n : Nat) : String :=
  ⟨List.replicate (4 - (natStr n).length) '0' ++ (natStr n).data⟩

/-- Which code path wrote a row: the material header path writes blanks to
the item number and component columns, the component line path writes the
child fields. -/
inductive RowKind where
  | materialHeader
  | componentLine
deriving DecidableEq, Repr

/-- One worksheet row as written by the program: column E (material),
column L (item number), column N (component), column O (quantity),
column P (unit), plus the kind of the writing code path. -/
structure Row where
  material : String
  itemNum : String
  component : String
  quantity : String
  unit : String
  kind : RowKind
deriving DecidableEq, Repr

/-- The material header row written for a node (columns L, N, O, P blank). -/
def headerRow (it : Item) : Row :=
  { material := it.art_nr, itemNum := "", component := "", quantity := "",
    unit := "", kind := .materialHeader }

/-- The component line written for one child under a parent, with the given
item number value. -/
def compRow (parent child : Item) (num : Nat) : Row :=
  { material := parent.art_nr, itemNum := pad4 num, component := child.art_nr,
    quantity := child.quantity, unit := child.unit, kind := .componentLine }

/-- The component loop of the writer: one component line per child, with the
item number starting at the given value and incremented by ten per child
(the loops at lines 158 to 167, 183 to 193 and 242 to 252 of
src/sequential_processor.py). -/
def compRowsFrom (p : Item) (num : Nat) : List Node → List Row
  | [] => []
  | c :: cs => compRow p c.item num :: compRowsFrom p (num + 10) cs

mutual
/-- Rows written by write_deeper_levels (lines 226 to 258): nothing for a
childless node; otherwise the header of the node, all component lines of its
children, then recursively the output for each child. -/
def write_deeper_levels : Node → List Row
  | .mk it cs =>
    if cs.isEmpty then []
    else headerRow it :: compRowsFrom it 10 cs ++ deeperList cs
/-- Rows written by the recursion loop at lines 254 to 256: the output of
write_deeper_levels for each node of the list, in order. -/
def deeperList : List Node → List Row
  | [] => []
  | c :: cs => write_deeper_levels c ++ deeperList cs
end

/-- The level 4 loop of write_hierarchy_ordered (lines 211 to 222): for each
level 4 child in turn, its component line and then immediately the
write_deeper_levels output of that child (the recursive call is inside the
component loop in the source). -/
def level4Seq (p : Item) : Nat → List Node → List Row
  | _, [] => []
  | num, c :: cs => compRow p c.item num :: (write_deeper_levels c ++ level4Seq p (num + 10) cs)

/-- Rows written for one level 3 node by the branch at lines 196 to 222:
nothing if it has no children, otherwise its header followed by the level 4
loop over its children. -/
def level3Block (l3 : Node) : List Row :=
  if l3.children.isEmpty then []
  else headerRow l3.item :: level4Seq l3.item 10 l3.children

/-- Rows written for one level 2 node by the branch at lines 170 to 222:
nothing if it has no children, otherwise its header, the component lines of
all its children, then the level 3 blocks of its children in order. -/
def level2Block (l2 : Node) : List Row :=
  if l2.children.isEmpty then []
  else headerRow l2.item :: compRowsFrom l2.item 10 l2.children ++ l2.children.flatMap level3Block

/-- Rows written for one root by the body of the outer loop of
write_hierarchy_ordered (lines 145 to 222): the root header
(unconditionally), the component lines of all its children, then the level 2
blocks of its children in order. -/
def rootBlock (l1 : Node) : List Row :=
  headerRow l1.item :: compRowsFrom l1.item 10 l1.children ++ l1.children.flatMap level2Block

/-- The full output sequence of write_hierarchy_ordered over the forest. -/
def write_hierarchy_ordered (hierarchy : List Node) : List Row :=
  hierarchy.flatMap rootBlock

/-- The component lines belonging to one parent node: one line per direct
child, item numbers starting at ten and stepping by ten. -/
def childBlock (p : Node) : List Row := compRowsFrom p.item 10 p.children

/-- Selector for component line rows. -/
def Row.isComp (r : Row) : Bool :=
  match r.kind with
  | .componentLine => true
  | .materialHeader => false

mutual
/-- Every node of the subtree rooted at a node, root first. -/
def allNodesN : Node → List Node
  | .mk it cs => .mk it cs :: allNodesF cs
/-- Every node of the subtrees of a list of nodes, in order. -/
def allNodesF : List Node → List Node
  | [] => []
  | n :: ns => allNodesN n ++ allNodesF ns
end

/-- One raw spreadsheet cell as seen through pandas: missing (isna), a
number with an integral value, or text. -/
inductive Cell where
  | blank
  | num (n : Nat)
  | text (s : String)

/-- Numeric value of a decimal digit character. -/
def digitVal (c : Char) : Nat := c.toNat - 48

/-- Value of a string of decimal digits, most significant first. -/
def parseDigits (l : List Char) : Nat := l.foldl (fun a c => a * 10 + digitVal c) 0

/-- First maximal run of decimal digits of a character list, if any; models
the first match of the regular expression of one or more digits used at
line 61 of src/simple_excel_processor.py. -/
def firstRun : List Char → Option (List Char)
  | [] => none
  | c :: cs => if c.isDigit then some (c :: cs.takeWhile Char.isDigit) else firstRun cs

/-- Level extraction of process_aptive_to_bom (lines 54 to 65 of
src/simple_excel_processor.py): a blank cell is skipped (the isna check);
otherwise the textual form of the cell is scanned for its first run of
decimal digits, which is parsed as the level; with no digits the row is
skipped.  The strip call of the source only removes surrounding whitespace
and cannot change the first digit run, so it is not modelled separately.
none means the row is skipped; no path raises. -/
def extract_level (c : Cell) : Option Nat :=
  match c with
  | .blank => none
  | .num n => (firstRun (natStr n).data).map parseDigits
  | .text s => (firstRun s.data).map parseDigits

/-- Python str.upper restricted to the ASCII fragment: uppercase every
character. -/
def upperStr (s : String) : String := ⟨s.data.map Char.toUpper⟩

/-- Unit extraction shared by the variants (line 111 of
src/sequential_processor.py and its twins): blank becomes the empty string,
any other cell is rendered as text and uppercased. -/
def unit_of : Cell → String
  | .blank => ""
  | .num n => natStr n
  | .text s => upperStr s

/-- Python int applied to an unsigned decimal string: the value of the
digits, or a raised error (none) when the string is empty or has a non
digit character.  Signed and whitespace padded forms accepted by Python do
not occur on the claimed paths and are out of scope. -/
def pyNat (s : String) : Option Nat :=
  if !s.data.isEmpty && s.data.all Char.isDigit then some (parseDigits s.data) else none

/-- Identifier extraction of build_hierarchy_structure (line 110 of
src/sequential_processor.py): a blank cell becomes the empty string, a
numeric cell is truncated to an int and rendered in plain decimal, and text
goes through Python int which may raise (none). -/
def art_nr_of : Cell → Option String
  | .blank => some ""
  | .num n => some (natStr n)
  | .text s => (pyNat s).map natStr

/-- Records for the scenario with input levels 1, 2, 3, 4, 3, 4, 4. -/
def demoItems : List Item :=
  [⟨1, "A001", "ST", "1"⟩, ⟨2, "A002", "ST", "2"⟩, ⟨3, "A003", "ST", "3"⟩,
   ⟨4, "A004", "ST", "4"⟩, ⟨3, "A005", "ST", "5"⟩, ⟨4, "A006", "ST", "6"⟩,
   ⟨4, "A007", "ST", "7"⟩]

/-- Records for the scenario with input levels 1, 2, 3, 4, 5, 4: a level 4
node with a level 5 child followed by a level 4 sibling. -/
def deepItems : List Item :=
  [⟨1, "B001", "ST", "1"⟩, ⟨2, "B002", "ST", "2"⟩, ⟨3, "B003", "ST", "3"⟩,
   ⟨4, "B004", "ST", "4"⟩, ⟨5, "B005", "ST", "5"⟩, ⟨4, "B006", "ST", "6"⟩]

/-- Records with levels 1 and 3: the second level jumps by two, so it has no
open ancestor at level 2. -/
def jumpItems : List Item := [⟨1, "A", "ST", "1"⟩, ⟨3, "B", "ST", "2"⟩]

/-- A single childless level 1 record. -/
def lonelyItems : List Item := [⟨1, "A", "ST", "1"⟩]

/-- The row is the header row of some node of S that has children. -/
def HdrFrom (S : List Node) (row : Row) : Prop :=
  ∃ p, p ∈ S ∧ p.children ≠ [] ∧ row = headerRow p.item

/-- The row is the component line of the child at position k of some node of
S, carrying the item number ten times the successor of k. -/
def CompFrom (S : List Node) (row : Row) : Prop :=
  ∃ p k, p ∈ S ∧ k < p.children.length ∧
    row = compRow p.item ((p.children.getD k default).item) (10 * (k + 1))

/-! Basic lemmas about the child scanning loop. -/

theorem mem_collectKids_iff (lvl : Nat) :
    ∀ (l : List Item) (j0 j : Nat),
      j ∈ collectKids lvl j0 l ↔
        ∃ d, j = j0 + d ∧ d < l.length ∧ (l.getD d default).level = lvl + 1 ∧
          ∀ e, e < d → lvl < (l.getD e default).level
  | [], j0, j => by simp [collectKids]
  | it :: rest, j0, j => by
    by_cases h1 : it.level = lvl + 1
    · simp only [collectKids, if_pos h1, List.mem_cons]
      constructor
      · rintro (rfl | hm)
        · exact ⟨0, by omega, by simp, by simp [h1], by intro e he; exact absurd he (by omega)⟩
        · obtain ⟨d, rfl, hd, hl, he⟩ := (mem_collectKids_iff lvl rest (j0 + 1) j).1 hm
          refine ⟨d + 1, by omega, by simp; omega, by simpa using hl, ?_⟩
          intro e he1
          cases e with
          | zero => simp; omega
          | succ e2 => simpa using he e2 (by omega)
      · rintro ⟨d, rfl, hd, hl, he⟩
        cases d with
        | zero => left; omega
        | succ d2 =>
          right
          refine (mem_collectKids_iff lvl rest (j0 + 1) _).2
            ⟨d2, by omega, by simp at hd; omega, by simpa using hl, ?_⟩
          intro e he1
          simpa using he (e + 1) (by omega)
    · by_cases h2 : it.level ≤ lvl
      · simp only [collectKids, if_neg h1, if_pos h2, List.not_mem_nil, false_iff]
        rintro ⟨d, rfl, hd, hl, he⟩
        cases d with
        | zero => simp at hl; omega
        | succ d2 =>
          have h3 := he 0 (by omega)
          simp at h3
          omega
      · simp only [collectKids, if_neg h1, if_neg h2]
        rw [mem_collectKids_iff lvl rest (j0 + 1) j]
        constructor
        · rintro ⟨d, rfl, hd, hl, he⟩
          refine ⟨d + 1, by omega, by simp; omega, by simpa using hl, ?_⟩
          intro e he1
          cases e with
          | zero => simp; omega
          | succ e2 => simpa using he e2 (by omega)
        · rintro ⟨d, hj, hd, hl, he⟩
          cases d with
          | zero =>
            exfalso
            simp at hl
            exact h1 (by omega)
          | succ d2 =>
            refine ⟨d2, by omega, by simp at hd; omega, by simpa using hl, ?_⟩
            intro e he1
            simpa using he (e + 1) (by omega)

theorem mem_childrenIdx_iff (items : List Item) (i j : Nat) :
    j ∈ childrenIdx items i ↔
      i < j ∧ j < items.length ∧
        (itemAt items j).level = (itemAt items i).level + 1 ∧
        ∀ k, i < k → k < j → (itemAt items i).level < (itemAt items k).level := by
  unfold childrenIdx
  rw [mem_collectKids_iff]
  constructor
  · rintro ⟨d, rfl, hd, hl, he⟩
    simp only [List.length_drop] at hd
    refine ⟨by omega, by omega, ?_, ?_⟩
    · have hg : (items.drop (i + 1)).getD d default = itemAt items (i + 1 + d) := by
        simp [itemAt, List.getD_eq_getElem?_getD, List.getElem?_drop]
      rwa [hg] at hl
    · intro k hk1 hk2
      have h3 := he (k - (i + 1)) (by omega)
      have hg : (items.drop (i + 1)).getD (k - (i + 1)) default = itemAt items k := by
        simp only [itemAt, List.getD_eq_getElem?_getD, List.getElem?_drop]
        congr 2
        omega
      rwa [hg] at h3
  · rintro ⟨hij, hjl, hl, hk⟩
    refine ⟨j - (i + 1), by omega, by simp [List.length_drop]; omega, ?_, ?_⟩
    · have hg : (items.drop (i + 1)).getD (j - (i + 1)) default = itemAt items j := by
        simp only [itemAt, List.getD_eq_getElem?_getD, List.getElem?_drop]
        congr 2
        omega
      rw [hg]
      exact hl
    · intro e he1
      have hg : (items.drop (i + 1)).getD e default = itemAt items (i + 1 + e) := by
        simp [itemAt, List.getD_eq_getElem?_getD, List.getElem?_drop]
      rw [hg]
      exact hk (i + 1 + e) (by omega) (by omega)

theorem childrenIdx_gt {items : List Item} {i j : Nat} (h : j ∈ childrenIdx items i) :
    i < j :=
  ((mem_childrenIdx_iff items i j).1 h).1

theorem childrenIdx_lt_length {items : List Item} {i j : Nat}
    (h : j ∈ childrenIdx items i) : j < items.length :=
  ((mem_childrenIdx_iff items i j).1 h).2.1

theorem childrenIdx_level {items : List Item} {i j : Nat} (h : j ∈ childrenIdx items i) :
    (itemAt items j).level = (itemAt items i).level + 1 :=
  ((mem_childrenIdx_iff items i j).1 h).2.2.1

theorem parent_unique {items : List Item} {i1 i2 j : Nat}
    (h1 : j ∈ childrenIdx items i1) (h2 : j ∈ childrenIdx items i2) : i1 = i2 := by
  obtain ⟨hlt1, _, hl1, hb1⟩ := (mem_childrenIdx_iff items i1 j).1 h1
  obtain ⟨hlt2, _, hl2, hb2⟩ := (mem_childrenIdx_iff items i2 j).1 h2
  rcases Nat.lt_trichotomy i1 i2 with h | h | h
  · have := hb1 i2 h hlt2
    omega
  · exact h
  · have := hb2 i1 h hlt1
    omega

theorem collectKids_ge (lvl : Nat) {l : List Item} {j0 j : Nat}
    (h : j ∈ collectKids lvl j0 l) : j0 ≤ j := by
  obtain ⟨d, rfl, -, -, -⟩ := (mem_collectKids_iff lvl l j0 j).1 h
  omega

theorem collectKids_pairwise (lvl : Nat) :
    ∀ (l : List Item) (j0 : Nat), (collectKids lvl j0 l).Pairwise (· < ·)
  | [], _ => by simp [collectKids]
  | it :: rest, j0 => by
    unfold collectKids
    by_cases h1 : it.level = lvl + 1
    · simp only [if_pos h1]
      refine List.Pairwise.cons ?_ (collectKids_pairwise lvl rest (j0 + 1))
      intro x hx
      have := collectKids_ge lvl hx
      omega
    · by_cases h2 : it.level ≤ lvl
      · simp [if_neg h1, if_pos h2]
      · simpa [if_neg h1, if_neg h2] using collectKids_pairwise lvl rest (j0 + 1)

theorem childrenIdx_nodup (items : List Item) (i : Nat) : (childrenIdx items i).Nodup :=
  (collectKids_pairwise _ _ _).imp Nat.ne_of_lt

/-! Fuel sufficiency: the fuel chosen in bNode and subtreeIdx is enough,
giving clean unfolding equations. -/

theorem childrenIdx_nil {items : List Item} {i : Nat} (h : items.length ≤ i) :
    childrenIdx items i = [] := by
  unfold childrenIdx
  rw [List.drop_eq_nil_of_le (by omega)]
  rfl

theorem buildNodeF_congr (items : List Item) :
    ∀ (m i f1 f2 : Nat), items.length - i ≤ m → items.length - i ≤ f1 →
      items.length - i ≤ f2 → buildNodeF items f1 i = buildNodeF items f2 i := by
  intro m
  induction m with
  | zero =>
    intro i f1 f2 hm h1 h2
    have hnil : childrenIdx items i = [] := childrenIdx_nil (by omega)
    cases f1 <;> cases f2 <;> simp [buildNodeF, hnil]
  | succ m ih =>
    intro i f1 f2 hm h1 h2
    by_cases hi : items.length ≤ i
    · have hnil : childrenIdx items i = [] := childrenIdx_nil hi
      cases f1 <;> cases f2 <;> simp [buildNodeF, hnil]
    · cases f1 with
      | zero => omega
      | succ a =>
        cases f2 with
        | zero => omega
        | succ b =>
          simp only [buildNodeF, Node.mk.injEq, true_and]
          apply List.map_congr_left
          intro j hj
          have hji := childrenIdx_gt hj
          have hjl := childrenIdx_lt_length hj
          exact ih j a b (by omega) (by omega) (by omega)

theorem bNode_eq (items : List Item) (i : Nat) :
    bNode items i = .mk (itemAt items i) ((childrenIdx items i).map (bNode items)) := by
  by_cases hi : items.length ≤ i
  · have hnil := childrenIdx_nil hi
    unfold bNode
    cases hf : items.length with
    | zero => simp [buildNodeF, hnil]
    | succ L => simp [buildNodeF, hnil]
  · obtain ⟨L, hL⟩ : ∃ L, items.length = L + 1 := ⟨items.length - 1, by omega⟩
    have lhs1 : bNode items i
        = Node.mk (itemAt items i) ((childrenIdx items i).map (buildNodeF items L)) := by
      unfold bNode
      rw [hL]
      rfl
    rw [lhs1]
    simp only [Node.mk.injEq, true_and]
    apply List.map_congr_left
    intro j hj
    have hji := childrenIdx_gt hj
    have hjl := childrenIdx_lt_length hj
    show buildNodeF items L j = buildNodeF items items.length j
    exact buildNodeF_congr items items.length j L items.length (by omega) (by omega) (by omega)

theorem subtreeIdxF_congr (items : List Item) :
    ∀ (m i f1 f2 : Nat), items.length - i ≤ m → items.length - i ≤ f1 →
      items.length - i ≤ f2 → subtreeIdxF items f1 i = subtreeIdxF items f2 i := by
  intro m
  induction m with
  | zero =>
    intro i f1 f2 hm h1 h2
    have hnil : childrenIdx items i = [] := childrenIdx_nil (by omega)
    cases f1 <;> cases f2 <;> simp [subtreeIdxF, hnil]
  | succ m ih =>
    intro i f1 f2 hm h1 h2
    by_cases hi : items.length ≤ i
    · have hnil : childrenIdx items i = [] := childrenIdx_nil hi
      cases f1 <;> cases f2 <;> simp [subtreeIdxF, hnil]
    · cases f1 with
      | zero => omega
      | succ a =>
        cases f2 with
        | zero => omega
        | succ b =>
          simp only [subtreeIdxF, List.cons.injEq, true_and]
          apply List.flatMap_congr
          intro j hj
          have hji := childrenIdx_gt hj
          have hjl := childrenIdx_lt_length hj
          exact ih j a b (by omega) (by omega) (by omega)

theorem subtreeIdx_eq (items : List Item) (i : Nat) :
    subtreeIdx items i = i :: (childrenIdx items i).flatMap (subtreeIdx items) := by
  by_cases hi : items.length ≤ i
  · have hnil := childrenIdx_nil hi
    unfold subtreeIdx
    cases hf : items.length with
    | zero => simp [subtreeIdxF, hnil]
    | succ L => simp [subtreeIdxF, hnil]
  · obtain ⟨L, hL⟩ : ∃ L, items.length = L + 1 := ⟨items.length - 1, by omega⟩
    have lhs1 : subtreeIdx items i
        = i :: (childrenIdx items i).flatMap (subtreeIdxF items L) := by
      unfold subtreeIdx
      rw [hL]
      rfl
    rw [lhs1]
    simp only [List.cons.injEq, true_and]
    apply List.flatMap_congr
    intro j hj
    have hji := childrenIdx_gt hj
    have hjl := childrenIdx_lt_length hj
    show subtreeIdxF items L j = subtreeIdxF items items.length j
    exact subtreeIdxF_congr items items.length j L items.length (by omega) (by omega) (by omega)

/-! Structure of the subtree index lists. -/

theorem self_mem_subtreeIdx (items : List Item) (i : Nat) : i ∈ subtreeIdx items i := by
  rw [subtreeIdx_eq]
  exact List.mem_cons_self i _

theorem mem_subtreeIdx_cases {items : List Item} {i x : Nat} (h : x ∈ subtreeIdx items i) :
    x = i ∨ ∃ c, c ∈ childrenIdx items i ∧ x ∈ subtreeIdx items c := by
  rw [subtreeIdx_eq] at h
  simpa using h

theorem mem_subtreeIdx_of_child {items : List Item} {i c x : Nat}
    (hc : c ∈ childrenIdx items i) (hx : x ∈ subtreeIdx items c) :
    x ∈ subtreeIdx items i := by
  rw [subtreeIdx_eq]
  exact List.mem_cons_of_mem _ (List.mem_flatMap_of_mem hc hx)

theorem subtreeIdx_ge_aux (items : List Item) :
    ∀ (m i x : Nat), items.length - i ≤ m → x ∈ subtreeIdx items i → i ≤ x := by
  intro m
  induction m with
  | zero =>
    intro i x hm h
    rcases mem_subtreeIdx_cases h with rfl | ⟨c, hc, -⟩
    · omega
    · have := childrenIdx_lt_length hc
      have := childrenIdx_gt hc
      omega
  | succ m ih =>
    intro i x hm h
    rcases mem_subtreeIdx_cases h with rfl | ⟨c, hc, hx⟩
    · omega
    · have h1 := childrenIdx_lt_length hc
      have h2 := childrenIdx_gt hc
      have := ih c x (by omega) hx
      omega

theorem subtreeIdx_ge {items : List Item} {i x : Nat} (h : x ∈ subtreeIdx items i) :
    i ≤ x :=
  subtreeIdx_ge_aux items items.length i x (by omega) h

theorem subtreeIdx_lt_length_aux (items : List Item) :
    ∀ (m i x : Nat), items.length - i ≤ m → i < items.length →
      x ∈ subtreeIdx items i → x < items.length := by
  intro m
  induction m with
  | zero => intro i x hm hi h; omega
  | succ m ih =>
    intro i x hm hi h
    rcases mem_subtreeIdx_cases h with rfl | ⟨c, hc, hx⟩
    · omega
    · have h1 := childrenIdx_lt_length hc
      have h2 := childrenIdx_gt hc
      exact ih c x (by omega) h1 hx

theorem subtreeIdx_lt_length {items : List Item} {i x : Nat} (hi : i < items.length)
    (h : x ∈ subtreeIdx items i) : x < items.length :=
  subtreeIdx_lt_length_aux items items.length i x (by omega) hi h

theorem subtreeIdx_level_ge_aux (items : List Item) :
    ∀ (m i x : Nat), items.length - i ≤ m → x ∈ subtreeIdx items i →
      (itemAt items i).level ≤ (itemAt items x).level := by
  intro m
  induction m with
  | zero =>
    intro i x hm h
    rcases mem_subtreeIdx_cases h with rfl | ⟨c, hc, -⟩
    · omega
    · have := childrenIdx_lt_length hc
      have := childrenIdx_gt hc
      omega
  | succ m ih =>
    intro i x hm h
    rcases mem_subtreeIdx_cases h with rfl | ⟨c, hc, hx⟩
    · omega
    · have h1 := childrenIdx_lt_length hc
      have h2 := childrenIdx_gt hc
      have h3 := childrenIdx_level hc
      have := ih c x (by omega) hx
      omega

theorem subtreeIdx_level_ge {items : List Item} {i x : Nat}
    (h : x ∈ subtreeIdx items i) : (itemAt items i).level ≤ (itemAt items x).level :=
  subtreeIdx_level_ge_aux items items.length i x (by omega) h

theorem subtreeIdx_parent_aux (items : List Item) :
    ∀ (m i x : Nat), items.length - i ≤ m → x ∈ subtreeIdx items i → x ≠ i →
      ∃ p, p ∈ subtreeIdx items i ∧ x ∈ childrenIdx items p := by
  intro m
  induction m with
  | zero =>
    intro i x hm h hne
    rcases mem_subtreeIdx_cases h with rfl | ⟨c, hc, -⟩
    · exact absurd rfl hne
    · have := childrenIdx_lt_length hc
      have := childrenIdx_gt hc
      omega
  | succ m ih =>
    intro i x hm h hne
    rcases mem_subtreeIdx_cases h with rfl | ⟨c, hc, hx⟩
    · exact absurd rfl hne
    · have h1 := childrenIdx_lt_length hc
      have h2 := childrenIdx_gt hc
      by_cases hxc : x = c
      · subst hxc
        exact ⟨i, self_mem_subtreeIdx items i, hc⟩
      · obtain ⟨p, hp, hxp⟩ := ih c x (by omega) hx hxc
        exact ⟨p, mem_subtreeIdx_of_child hc hp, hxp⟩

theorem subtreeIdx_parent {items : List Item} {i x : Nat}
    (h : x ∈ subtreeIdx items i) (hne : x ≠ i) :
    ∃ p, p ∈ subtreeIdx items i ∧ x ∈ childrenIdx items p :=
  subtreeIdx_parent_aux items items.length i x (by omega) h hne

/-! Lemmas about the node enumeration of a tree. -/

theorem allNodesN_eq (n : Node) : allNodesN n = n :: allNodesF n.children := by
  cases n with
  | mk it cs => rfl

theorem allNodesF_eq (l : List Node) : allNodesF l = l.flatMap allNodesN := by
  induction l with
  | nil => rfl
  | cons n ns ih => simp [allNodesF, ih]

theorem self_mem_allNodesN (n : Node) : n ∈ allNodesN n := by
  rw [allNodesN_eq]
  exact List.mem_cons_self n _

theorem mem_allNodesN_of_child {c n x : Node} (hc : c ∈ n.children)
    (hx : x ∈ allNodesN c) : x ∈ allNodesN n := by
  rw [allNodesN_eq, allNodesF_eq]
  exact List.mem_cons_of_mem _ (List.mem_flatMap_of_mem hc hx)

theorem mem_allNodesF_of_mem {n : Node} {F : List Node} (h : n ∈ F) {x : Node}
    (hx : x ∈ allNodesN n) : x ∈ allNodesF F := by
  rw [allNodesF_eq]
  exact List.mem_flatMap_of_mem h hx

theorem mem_allNodesF_self {n : Node} {F : List Node} (h : n ∈ F) : n ∈ allNodesF F :=
  mem_allNodesF_of_mem h (self_mem_allNodesN n)

theorem mem_allNodesN_cases {x n : Node} (h : x ∈ allNodesN n) :
    x = n ∨ ∃ c, c ∈ n.children ∧ x ∈ allNodesN c := by
  rw [allNodesN_eq, allNodesF_eq] at h
  simpa using h

theorem mem_allNodesF_cases {x : Node} {F : List Node} (h : x ∈ allNodesF F) :
    ∃ r, r ∈ F ∧ x ∈ allNodesN r := by
  rw [allNodesF_eq] at h
  simpa using h

/-- The nodes of a built tree are exactly the built nodes of the subtree
indices, in the same order. -/
theorem allNodesN_bNode_aux (items : List Item) :
    ∀ (m i : Nat), items.length - i ≤ m →
      allNodesN (bNode items i) = (subtreeIdx items i).map (bNode items) := by
  intro m
  induction m with
  | zero =>
    intro i hm
    have hnil : childrenIdx items i = [] := childrenIdx_nil (by omega)
    rw [subtreeIdx_eq, hnil]
    simp only [List.flatMap_nil, List.map_cons, List.map_nil]
    rw [bNode_eq, hnil]
    simp [allNodesN_eq, allNodesF_eq, Node.children]
  | succ m ih =>
    intro i hm
    by_cases hi : items.length ≤ i
    · have hnil : childrenIdx items i = [] := childrenIdx_nil hi
      rw [subtreeIdx_eq, hnil]
      simp only [List.flatMap_nil, List.map_cons, List.map_nil]
      rw [bNode_eq, hnil]
      simp [allNodesN_eq, allNodesF_eq, Node.children]
    · rw [subtreeIdx_eq, List.map_cons]
      rw [bNode_eq, allNodesN_eq]
      simp only [Node.children]
      rw [allNodesF_eq, List.flatMap_map]
      rw [← bNode_eq]
      congr 1
      rw [List.map_flatMap]
      apply List.flatMap_congr
      intro j hj
      have hji := childrenIdx_gt hj
      have hjl := childrenIdx_lt_length hj
      exact ih j (by omega)

theorem allNodesN_bNode (items : List Item) (i : Nat) :
    allNodesN (bNode items i) = (subtreeIdx items i).map (bNode items) :=
  allNodesN_bNode_aux items items.length i (by omega)

/-- The nodes of the built forest are exactly the built nodes of the
reachable indices, in the same order. -/
theorem allNodesF_build (items : List Item) :
    allNodesF (build_hierarchy_structure items) = (reachIdx items).map (bNode items) := by
  unfold build_hierarchy_structure reachIdx
  rw [allNodesF_eq, List.flatMap_map, List.map_flatMap]
  apply List.flatMap_congr
  intro r hr
  exact allNodesN_bNode items r

/-! Subtrees of distinct siblings and of distinct roots are disjoint, so
every record index is reached at most once. -/

theorem subtree_overlap_aux (items : List Item) :
    ∀ (m i1 i2 x : Nat), (x - i1) + (x - i2) ≤ m →
      x ∈ subtreeIdx items i1 → x ∈ subtreeIdx items i2 →
      i1 ∈ subtreeIdx items i2 ∨ i2 ∈ subtreeIdx items i1 := by
  intro m
  induction m with
  | zero =>
    intro i1 i2 x hm h1 h2
    have g1 := subtreeIdx_ge h1
    have g2 := subtreeIdx_ge h2
    have e1 : x = i1 := by omega
    subst e1
    left
    exact h2
  | succ m ih =>
    intro i1 i2 x hm h1 h2
    rcases mem_subtreeIdx_cases h1 with rfl | ⟨c1, hc1, hx1⟩
    · left
      exact h2
    · rcases mem_subtreeIdx_cases h2 with rfl | ⟨c2, hc2, hx2⟩
      · right
        exact h1
      · have hg1 := childrenIdx_gt hc1
        have hg2 := childrenIdx_gt hc2
        have hx1ge := subtreeIdx_ge hx1
        have hx2ge := subtreeIdx_ge hx2
        rcases ih c1 c2 x (by omega) hx1 hx2 with hcc | hcc
        · by_cases he : c1 = c2
          · subst he
            have hp := parent_unique hc1 hc2
            subst hp
            left
            exact self_mem_subtreeIdx items i1
          · obtain ⟨p, hp, hcp⟩ := subtreeIdx_parent hcc he
            have hpe : p = i1 := parent_unique hcp hc1
            subst hpe
            left
            exact mem_subtreeIdx_of_child hc2 hp
        · by_cases he : c2 = c1
          · subst he
            have hp := parent_unique hc1 hc2
            subst hp
            left
            exact self_mem_subtreeIdx items i1
          · obtain ⟨p, hp, hcp⟩ := subtreeIdx_parent hcc he
            have hpe : p = i2 := parent_unique hcp hc2
            subst hpe
            right
            exact mem_subtreeIdx_of_child hc1 hp

theorem subtree_overlap {items : List Item} {i1 i2 x : Nat}
    (h1 : x ∈ subtreeIdx items i1) (h2 : x ∈ subtreeIdx items i2) :
    i1 ∈ subtreeIdx items i2 ∨ i2 ∈ subtreeIdx items i1 :=
  subtree_overlap_aux items ((x - i1) + (x - i2)) i1 i2 x (by omega) h1 h2

theorem subtree_disjoint_siblings {items : List Item} {i c1 c2 : Nat}
    (hc1 : c1 ∈ childrenIdx items i) (hc2 : c2 ∈ childrenIdx items i) (hne : c1 ≠ c2) :
    ∀ x, x ∈ subtreeIdx items c1 → x ∈ subtreeIdx items c2 → False := by
  intro x h1 h2
  rcases subtree_overlap h1 h2 with hcc | hcc
  · obtain ⟨p, hp, hcp⟩ := subtreeIdx_parent hcc hne
    have hpe : p = i := parent_unique hcp hc1
    subst hpe
    have := subtreeIdx_ge hp
    have := childrenIdx_gt hc2
    omega
  · obtain ⟨p, hp, hcp⟩ := subtreeIdx_parent hcc (Ne.symm hne)
    have hpe : p = i := parent_unique hcp hc2
    subst hpe
    have := subtreeIdx_ge hp
    have := childrenIdx_gt hc1
    omega

theorem mem_rootIdx_iff (items : List Item) (r : Nat) :
    r ∈ rootIdx items ↔ r < items.length ∧ (itemAt items r).level = 1 := by
  simp [rootIdx, List.mem_filter, List.mem_range]

theorem subtree_disjoint_roots {items : List Item} {r1 r2 : Nat}
    (h1 : r1 ∈ rootIdx items) (h2 : r2 ∈ rootIdx items) (hne : r1 ≠ r2) :
    ∀ x, x ∈ subtreeIdx items r1 → x ∈ subtreeIdx items r2 → False := by
  have hl1 := ((mem_rootIdx_iff items r1).1 h1).2
  have hl2 := ((mem_rootIdx_iff items r2).1 h2).2
  intro x hx1 hx2
  rcases subtree_overlap hx1 hx2 with hcc | hcc
  · obtain ⟨p, hp, hcp⟩ := subtreeIdx_parent hcc hne
    have := childrenIdx_level hcp
    have := subtreeIdx_level_ge hp
    omega
  · obtain ⟨p, hp, hcp⟩ := subtreeIdx_parent hcc (Ne.symm hne)
    have := childrenIdx_level hcp
    have := subtreeIdx_level_ge hp
    omega

theorem subtreeIdx_nodup_aux (items : List Item) :
    ∀ (m i : Nat), items.length - i ≤ m → (subtreeIdx items i).Nodup := by
  intro m
  induction m with
  | zero =>
    intro i hm
    have hnil : childrenIdx items i = [] := childrenIdx_nil (by omega)
    rw [subtreeIdx_eq, hnil]
    simp
  | succ m ih =>
    intro i hm
    rw [subtreeIdx_eq]
    rw [List.nodup_cons]
    constructor
    · intro hmem
      obtain ⟨c, hc, hic⟩ := List.mem_flatMap.1 hmem
      have := childrenIdx_gt hc
      have := subtreeIdx_ge hic
      omega
    · rw [List.nodup_flatMap]
      constructor
      · intro c hc
        have := childrenIdx_gt hc
        have := childrenIdx_lt_length hc
        exact ih c (by omega)
      · refine List.Pairwise.imp_of_mem ?_ (collectKids_pairwise _ _ _)
        intro a b ha hb hab
        exact fun x hxa hxb => subtree_disjoint_siblings ha hb (Nat.ne_of_lt hab) x hxa hxb

theorem subtreeIdx_nodup (items : List Item) (i : Nat) : (subtreeIdx items i).Nodup :=
  subtreeIdx_nodup_aux items items.length i (by omega)

theorem rootIdx_nodup (items : List Item) : (rootIdx items).Nodup :=
  (List.nodup_range items.length).filter _

theorem reachIdx_nodup (items : List Item) : (reachIdx items).Nodup := by
  unfold reachIdx
  rw [List.nodup_flatMap]
  refine ⟨fun r _ => subtreeIdx_nodup items r, ?_⟩
  refine List.Pairwise.imp_of_mem ?_ (rootIdx_nodup items)
  intro a b ha hb hab
  exact fun x hxa hxb => subtree_disjoint_roots ha hb hab x hxa hxb

/-- Every record index occurs at most once as a child across all reachable
parents: the concatenation of the children lists of the reachable indices
has no duplicate. -/
theorem childEdges_nodup (items : List Item) :
    ((reachIdx items).flatMap (childrenIdx items)).Nodup := by
  rw [List.nodup_flatMap]
  refine ⟨fun i _ => childrenIdx_nodup items i, ?_⟩
  refine List.Pairwise.imp_of_mem ?_ (reachIdx_nodup items)
  intro a b _ _ hab
  intro x hxa hxb
  exact hab (parent_unique hxa hxb)

/-! Lemmas about the component loop and the level 4 loop of the writer. -/

theorem isComp_compRow (p c : Item) (num : Nat) : (compRow p c num).isComp = true := rfl

theorem isComp_headerRow (it : Item) : (headerRow it).isComp = false := rfl

theorem mem_compRowsFrom (p : Item) :
    ∀ (cs : List Node) (num : Nat) (row : Row),
      row ∈ compRowsFrom p num cs ↔
        ∃ k, k < cs.length ∧ row = compRow p ((cs.getD k default).item) (num + 10 * k)
  | [], num, row => by simp [compRowsFrom]
  | c :: cs, num, row => by
    simp only [compRowsFrom, List.mem_cons]
    rw [mem_compRowsFrom p cs (num + 10) row]
    constructor
    · rintro (rfl | ⟨k, hk, rfl⟩)
      · exact ⟨0, by simp, by simp⟩
      · refine ⟨k + 1, by simp; omega, ?_⟩
        simp only [List.getD_cons_succ]
        have harith : num + 10 * (k + 1) = num + 10 + 10 * k := by omega
        rw [harith]
    · rintro ⟨k, hk, rfl⟩
      cases k with
      | zero => left; simp
      | succ k2 =>
        right
        refine ⟨k2, by simp at hk; omega, ?_⟩
        simp only [List.getD_cons_succ]
        have harith : num + 10 * (k2 + 1) = num + 10 + 10 * k2 := by omega
        rw [harith]

theorem compRowsFrom_filter (p : Item) :
    ∀ (cs : List Node) (num : Nat),
      (compRowsFrom p num cs).filter Row.isComp = compRowsFrom p num cs
  | [], _ => rfl
  | c :: cs, num => by
    simp only [compRowsFrom, List.filter_cons, isComp_compRow, if_pos]
    rw [compRowsFrom_filter p cs (num + 10)]

theorem mem_level4Seq_cases (p : Item) :
    ∀ (cs : List Node) (num : Nat) (row : Row), row ∈ level4Seq p num cs →
      (∃ k, k < cs.length ∧ row = compRow p ((cs.getD k default).item) (num + 10 * k)) ∨
      (∃ c, c ∈ cs ∧ row ∈ write_deeper_levels c)
  | [], num, row => by simp [level4Seq]
  | c :: cs, num, row => by
    simp only [level4Seq, List.mem_cons, List.mem_append]
    rintro (rfl | h | h)
    · left
      exact ⟨0, by simp, by simp⟩
    · right
      exact ⟨c, Or.inl rfl, h⟩
    · rcases mem_level4Seq_cases p cs (num + 10) row h with ⟨k, hk, rfl⟩ | ⟨c2, hc2, h2⟩
      · left
        refine ⟨k + 1, by simp; omega, ?_⟩
        simp only [List.getD_cons_succ]
        have harith : num + 10 * (k + 1) = num + 10 + 10 * k := by omega
        rw [harith]
      · right
        exact ⟨c2, Or.inr hc2, h2⟩

theorem level4Seq_mem_deeper (p : Item) :
    ∀ (cs : List Node) (num : Nat) {c : Node} {row : Row}, c ∈ cs →
      row ∈ write_deeper_levels c → row ∈ level4Seq p num cs
  | c0 :: cs, num, c, row, hc, hrow => by
    simp only [level4Seq, List.mem_cons, List.mem_append]
    rcases List.mem_cons.1 hc with rfl | hc2
    · right
      left
      exact hrow
    · right
      right
      exact level4Seq_mem_deeper p cs (num + 10) hc2 hrow

theorem compRowsFrom_sublist_level4Seq (p : Item) :
    ∀ (cs : List Node) (num : Nat), List.Sublist (compRowsFrom p num cs) (level4Seq p num cs)
  | [], _ => by simp [compRowsFrom, level4Seq]
  | c :: cs, num => by
    simp only [compRowsFrom, level4Seq]
    refine List.Sublist.cons₂ _ ?_
    exact (compRowsFrom_sublist_level4Seq p cs (num + 10)).trans (List.sublist_append_right _ _)

/-! Soundness of the rows produced by write_deeper_levels. -/

theorem HdrFrom_mono {S T : List Node} {row : Row} (hs : ∀ x, x ∈ S → x ∈ T)
    (h : HdrFrom S row) : HdrFrom T row := by
  obtain ⟨p, hp, hne, rfl⟩ := h
  exact ⟨p, hs p hp, hne, rfl⟩

theorem CompFrom_mono {S T : List Node} {row : Row} (hs : ∀ x, x ∈ S → x ∈ T)
    (h : CompFrom S row) : CompFrom T row := by
  obtain ⟨p, k, hp, hk, rfl⟩ := h
  exact ⟨p, k, hs p hp, hk, rfl⟩

mutual
theorem wd_sound : ∀ (n : Node) (row : Row), row ∈ write_deeper_levels n →
    HdrFrom (allNodesN n) row ∨ CompFrom (allNodesN n) row
  | .mk it cs, row => by
    intro h
    cases cs with
    | nil => simp [write_deeper_levels] at h
    | cons hd tl =>
      simp only [write_deeper_levels, List.isEmpty_cons, Bool.false_eq_true, if_false,
        List.mem_cons, List.mem_append] at h
      rcases h with (rfl | h) | h
      · left
        exact ⟨.mk it (hd :: tl), self_mem_allNodesN _, by simp [Node.children], rfl⟩
      · obtain ⟨k, hk, rfl⟩ := ((mem_compRowsFrom it (hd :: tl) 10 row).1 h)
        right
        refine ⟨.mk it (hd :: tl), k, self_mem_allNodesN _, by simpa [Node.children] using hk, ?_⟩
        simp only [Node.item, Node.children]
        have harith : 10 * (k + 1) = 10 + 10 * k := by omega
        rw [harith]
      · rcases dl_sound (hd :: tl) row h with hh | hh
        · left
          refine HdrFrom_mono (fun x hx => ?_) hh
          rw [allNodesN_eq]
          exact List.mem_cons_of_mem _ hx
        · right
          refine CompFrom_mono (fun x hx => ?_) hh
          rw [allNodesN_eq]
          exact List.mem_cons_of_mem _ hx
theorem dl_sound : ∀ (l : List Node) (row : Row), row ∈ deeperList l →
    HdrFrom (allNodesF l) row ∨ CompFrom (allNodesF l) row
  | [], row => by simp [deeperList]
  | c :: cs, row => by
    intro h
    simp only [deeperList, List.mem_append] at h
    have hsub1 : ∀ x, x ∈ allNodesN c → x ∈ allNodesF (c :: cs) := by
      intro x hx
      simp only [allNodesF, List.mem_append]
      exact Or.inl hx
    have hsub2 : ∀ x, x ∈ allNodesF cs → x ∈ allNodesF (c :: cs) := by
      intro x hx
      simp only [allNodesF, List.mem_append]
      exact Or.inr hx
    rcases h with h | h
    · rcases wd_sound c row h with hh | hh
      · exact Or.inl (HdrFrom_mono hsub1 hh)
      · exact Or.inr (CompFrom_mono hsub1 hh)
    · rcases dl_sound cs row h with hh | hh
      · exact Or.inl (HdrFrom_mono hsub2 hh)
      · exact Or.inr (CompFrom_mono hsub2 hh)
end

/-! Every node with children below a given tree gets its header row in the
write_deeper_levels output, and its child component block is a sublist. -/

mutual
theorem wd_hdr : ∀ (n p : Node), p ∈ allNodesN n → p.children ≠ [] →
    headerRow p.item ∈ write_deeper_levels n
  | .mk it cs, p => by
    intro hp hne
    rcases mem_allNodesN_cases hp with rfl | ⟨c, hc, hpc⟩
    · cases cs with
      | nil => simp [Node.children] at hne
      | cons hd tl => simp [write_deeper_levels, Node.item]
    · have hc2 : c ∈ cs := by simpa [Node.children] using hc
      cases cs with
      | nil => simp at hc2
      | cons hd tl =>
        have h1 : headerRow p.item ∈ deeperList (hd :: tl) :=
          dl_hdr (hd :: tl) p (mem_allNodesF_of_mem hc2 hpc) hne
        simp only [write_deeper_levels, List.isEmpty_cons, Bool.false_eq_true, if_false]
        exact List.mem_append_right _ h1
theorem dl_hdr : ∀ (l : List Node) (p : Node), p ∈ allNodesF l → p.children ≠ [] →
    headerRow p.item ∈ deeperList l
  | [], p => by
    intro hp _
    simp [allNodesF] at hp
  | c :: cs, p => by
    intro hp hne
    simp only [allNodesF, List.mem_append] at hp
    simp only [deeperList, List.mem_append]
    rcases hp with hp | hp
    · exact Or.inl (wd_hdr c p hp hne)
    · exact Or.inr (dl_hdr cs p hp hne)
end

mutual
theorem wd_sub : ∀ (n p : Node), p ∈ allNodesN n →
    List.Sublist (childBlock p) (write_deeper_levels n)
  | .mk it cs, p => by
    intro hp
    rcases mem_allNodesN_cases hp with rfl | ⟨c, hc, hpc⟩
    · cases cs with
      | nil =>
        simp only [childBlock, Node.children, Node.item, compRowsFrom]
        exact List.nil_sublist _
      | cons hd tl =>
        simp only [childBlock, Node.children, Node.item, write_deeper_levels,
          List.isEmpty_cons, Bool.false_eq_true, if_false]
        exact ((List.sublist_cons_self _ _).trans (List.sublist_append_left _ _))
    · have hc2 : c ∈ cs := by simpa [Node.children] using hc
      cases cs with
      | nil => simp at hc2
      | cons hd tl =>
        have h1 : List.Sublist (childBlock p) (deeperList (hd :: tl)) :=
          dl_sub (hd :: tl) p (mem_allNodesF_of_mem hc2 hpc)
        simp only [write_deeper_levels, List.isEmpty_cons, Bool.false_eq_true, if_false]
        exact h1.trans (List.sublist_append_right _ _)
theorem dl_sub : ∀ (l : List Node) (p : Node), p ∈ allNodesF l →
    List.Sublist (childBlock p) (deeperList l)
  | [], p => by
    intro hp
    simp [allNodesF] at hp
  | c :: cs, p => by
    intro hp
    simp only [allNodesF, List.mem_append] at hp
    simp only [deeperList]
    rcases hp with hp | hp
    · exact (wd_sub c p hp).trans (List.sublist_append_left _ _)
    · exact (dl_sub cs p hp).trans (List.sublist_append_right _ _)
end

/-! Soundness of the rows produced by the top level writer blocks. -/

theorem level3Block_sound (l3 : Node) (row : Row) (h : row ∈ level3Block l3) :
    HdrFrom (allNodesN l3) row ∨ CompFrom (allNodesN l3) row := by
  cases l3 with
  | mk it cs =>
    simp only [level3Block, Node.children, Node.item] at h
    cases cs with
    | nil => simp at h
    | cons hd tl =>
      simp only [List.isEmpty_cons, Bool.false_eq_true, if_false, List.mem_cons] at h
      rcases h with rfl | h
      · left
        exact ⟨.mk it (hd :: tl), self_mem_allNodesN _, by simp [Node.children], rfl⟩
      · rcases mem_level4Seq_cases it (hd :: tl) 10 row h with ⟨k, hk, rfl⟩ | ⟨c, hc, hrow⟩
        · right
          refine ⟨.mk it (hd :: tl), k, self_mem_allNodesN _,
            by simpa [Node.children] using hk, ?_⟩
          simp only [Node.item, Node.children]
          have harith : 10 * (k + 1) = 10 + 10 * k := by omega
          rw [harith]
        · have hsub : ∀ x, x ∈ allNodesN c → x ∈ allNodesN (Node.mk it (hd :: tl)) :=
            fun x hx => mem_allNodesN_of_child (by simpa [Node.children] using hc) hx
          rcases wd_sound c row hrow with hh | hh
          · exact Or.inl (HdrFrom_mono hsub hh)
          · exact Or.inr (CompFrom_mono hsub hh)

theorem level2Block_sound (l2 : Node) (row : Row) (h : row ∈ level2Block l2) :
    HdrFrom (allNodesN l2) row ∨ CompFrom (allNodesN l2) row := by
  cases l2 with
  | mk it cs =>
    simp only [level2Block, Node.children, Node.item] at h
    cases cs with
    | nil => simp at h
    | cons hd tl =>
      simp only [List.isEmpty_cons, Bool.false_eq_true, if_false, List.mem_cons,
        List.mem_append, List.mem_flatMap] at h
      rcases h with (rfl | h) | ⟨l3, hl3, h⟩
      · left
        exact ⟨.mk it (hd :: tl), self_mem_allNodesN _, by simp [Node.children], rfl⟩
      · obtain ⟨k, hk, rfl⟩ := (mem_compRowsFrom it (hd :: tl) 10 row).1 h
        right
        refine ⟨.mk it (hd :: tl), k, self_mem_allNodesN _,
          by simpa [Node.children] using hk, ?_⟩
        simp only [Node.item, Node.children]
        have harith : 10 * (k + 1) = 10 + 10 * k := by omega
        rw [harith]
      · have hsub : ∀ x, x ∈ allNodesN l3 → x ∈ allNodesN (Node.mk it (hd :: tl)) :=
          fun x hx => mem_allNodesN_of_child (by simpa [Node.children] using hl3) hx
        rcases level3Block_sound l3 row h with hh | hh
        · exact Or.inl (HdrFrom_mono hsub hh)
        · exact Or.inr (CompFrom_mono hsub hh)

theorem rootBlock_sound (r : Node) (row : Row) (h : row ∈ rootBlock r) :
    row = headerRow r.item ∨ HdrFrom (allNodesN r) row ∨ CompFrom (allNodesN r) row := by
  cases r with
  | mk it cs =>
    simp only [rootBlock, Node.children, Node.item, List.mem_append, List.mem_cons,
      List.mem_flatMap] at h
    rcases h with (rfl | h) | ⟨l2, hl2, h⟩
    · left
      simp [Node.item]
    · obtain ⟨k, hk, rfl⟩ := (mem_compRowsFrom it cs 10 row).1 h
      right
      right
      refine ⟨.mk it cs, k, self_mem_allNodesN _, by simpa [Node.children] using hk, ?_⟩
      simp only [Node.item, Node.children]
      have harith : 10 * (k + 1) = 10 + 10 * k := by omega
      rw [harith]
    · have hsub : ∀ x, x ∈ allNodesN l2 → x ∈ allNodesN (Node.mk it cs) :=
        fun x hx => mem_allNodesN_of_child (by simpa [Node.children] using hl2) hx
      rcases level2Block_sound l2 row h with hh | hh
      · exact Or.inr (Or.inl (HdrFrom_mono hsub hh))
      · exact Or.inr (Or.inr (CompFrom_mono hsub hh))

theorem top_sound {F : List Node} {row : Row} (h : row ∈ write_hierarchy_ordered F) :
    (∃ r, r ∈ F ∧ row = headerRow r.item) ∨
      HdrFrom (allNodesF F) row ∨ CompFrom (allNodesF F) row := by
  unfold write_hierarchy_ordered at h
  obtain ⟨r, hr, hrow⟩ := List.mem_flatMap.1 h
  rcases rootBlock_sound r row hrow with rfl | hh | hh
  · exact Or.inl ⟨r, hr, rfl⟩
  · exact Or.inr (Or.inl (HdrFrom_mono (fun x hx => mem_allNodesF_of_mem hr hx) hh))
  · exact Or.inr (Or.inr (CompFrom_mono (fun x hx => mem_allNodesF_of_mem hr hx) hh))

/-! Header existence and child block sublists at the top level writer. -/

theorem sublist_flatMap_of_mem {α β : Type} {l : List α} {a : α} (h : a ∈ l)
    (f : α → List β) : List.Sublist (f a) (l.flatMap f) := by
  induction l with
  | nil => cases h
  | cons b bs ih =>
    rw [List.flatMap_cons]
    rcases List.mem_cons.1 h with rfl | h2
    · exact List.sublist_append_left _ _
    · exact (ih h2).trans (List.sublist_append_right _ _)

theorem level3Block_hdr_mem (l3 p : Node) (hp : p ∈ allNodesN l3) (hne : p.children ≠ []) :
    headerRow p.item ∈ level3Block l3 := by
  cases l3 with
  | mk it cs =>
    rcases mem_allNodesN_cases hp with rfl | ⟨l4, hl4, hpl4⟩
    · cases cs with
      | nil => simp [Node.children] at hne
      | cons hd tl => simp [level3Block, Node.item, Node.children]
    · have hl42 : l4 ∈ cs := by simpa [Node.children] using hl4
      cases cs with
      | nil => simp at hl42
      | cons hd tl =>
        have h4 : headerRow p.item ∈ write_deeper_levels l4 := wd_hdr l4 p hpl4 hne
        have h5 : headerRow p.item ∈ level4Seq it 10 (hd :: tl) :=
          level4Seq_mem_deeper it (hd :: tl) 10 hl42 h4
        simp only [level3Block, Node.children, Node.item, List.isEmpty_cons,
          Bool.false_eq_true, if_false]
        exact List.mem_cons_of_mem _ h5

theorem level2Block_hdr_mem (l2 p : Node) (hp : p ∈ allNodesN l2) (hne : p.children ≠ []) :
    headerRow p.item ∈ level2Block l2 := by
  cases l2 with
  | mk it cs =>
    rcases mem_allNodesN_cases hp with rfl | ⟨l3, hl3, hpl3⟩
    · cases cs with
      | nil => simp [Node.children] at hne
      | cons hd tl => simp [level2Block, Node.item, Node.children]
    · have hl32 : l3 ∈ cs := by simpa [Node.children] using hl3
      cases cs with
      | nil => simp at hl32
      | cons hd tl =>
        have h3 : headerRow p.item ∈ level3Block l3 := level3Block_hdr_mem l3 p hpl3 hne
        simp only [level2Block, Node.children, Node.item, List.isEmpty_cons,
          Bool.false_eq_true, if_false]
        exact List.mem_append_right _ (List.mem_flatMap_of_mem hl32 h3)

theorem rootBlock_hdr_self (r : Node) : headerRow r.item ∈ rootBlock r := by
  cases r with
  | mk it cs =>
    simp [rootBlock, Node.item, Node.children]

theorem rootBlock_hdr_mem (r p : Node) (hp : p ∈ allNodesN r) (hne : p.children ≠ []) :
    headerRow p.item ∈ rootBlock r := by
  cases r with
  | mk it cs =>
    rcases mem_allNodesN_cases hp with rfl | ⟨l2, hl2, hpl2⟩
    · exact rootBlock_hdr_self _
    · have hl22 : l2 ∈ cs := by simpa [Node.children] using hl2
      have h2 : headerRow p.item ∈ level2Block l2 := level2Block_hdr_mem l2 p hpl2 hne
      simp only [rootBlock, Node.children, Node.item]
      exact List.mem_append_right _ (List.mem_flatMap_of_mem hl22 h2)

theorem top_hdr {F : List Node} {p : Node} (hp : p ∈ allNodesF F) (hne : p.children ≠ []) :
    headerRow p.item ∈ write_hierarchy_ordered F := by
  obtain ⟨r, hr, hpr⟩ := mem_allNodesF_cases hp
  unfold write_hierarchy_ordered
  exact List.mem_flatMap_of_mem hr (rootBlock_hdr_mem r p hpr hne)

theorem top_hdr_root {F : List Node} {r : Node} (hr : r ∈ F) :
    headerRow r.item ∈ write_hierarchy_ordered F := by
  unfold write_hierarchy_ordered
  exact List.mem_flatMap_of_mem hr (rootBlock_hdr_self r)

theorem wd_sublist_level4Seq (p : Item) :
    ∀ (cs : List Node) (num : Nat) {c : Node}, c ∈ cs →
      List.Sublist (write_deeper_levels c) (level4Seq p num cs)
  | c0 :: cs, num, c, hc => by
    simp only [level4Seq]
    rcases List.mem_cons.1 hc with rfl | hc2
    · exact (List.sublist_append_left _ _).cons _
    · exact ((wd_sublist_level4Seq p cs (num + 10) hc2).trans
        (List.sublist_append_right _ _)).cons _

theorem level3Block_sub (l3 p : Node) (hp : p ∈ allNodesN l3) :
    List.Sublist (childBlock p) (level3Block l3) := by
  cases l3 with
  | mk it cs =>
    rcases mem_allNodesN_cases hp with rfl | ⟨l4, hl4, hpl4⟩
    · cases cs with
      | nil =>
        simp only [childBlock, Node.children, Node.item, compRowsFrom]
        exact List.nil_sublist _
      | cons hd tl =>
        simp only [childBlock, Node.children, Node.item, level3Block, List.isEmpty_cons,
          Bool.false_eq_true, if_false]
        exact (compRowsFrom_sublist_level4Seq it (hd :: tl) 10).trans
          (List.sublist_cons_self _ _)
    · have hl42 : l4 ∈ cs := by simpa [Node.children] using hl4
      cases cs with
      | nil => simp at hl42
      | cons hd tl =>
        simp only [level3Block, Node.children, Node.item, List.isEmpty_cons,
          Bool.false_eq_true, if_false]
        exact ((wd_sub l4 p hpl4).trans (wd_sublist_level4Seq it (hd :: tl) 10 hl42)).trans
          (List.sublist_cons_self _ _)

theorem level2Block_sub (l2 p : Node) (hp : p ∈ allNodesN l2) :
    List.Sublist (childBlock p) (level2Block l2) := by
  cases l2 with
  | mk it cs =>
    rcases mem_allNodesN_cases hp with rfl | ⟨l3, hl3, hpl3⟩
    · cases cs with
      | nil =>
        simp only [childBlock, Node.children, Node.item, compRowsFrom]
        exact List.nil_sublist _
      | cons hd tl =>
        simp only [childBlock, Node.children, Node.item, level2Block, List.isEmpty_cons,
          Bool.false_eq_true, if_false]
        exact ((List.sublist_cons_self _ _).trans (List.sublist_append_left _ _))
    · have hl32 : l3 ∈ cs := by simpa [Node.children] using hl3
      cases cs with
      | nil => simp at hl32
      | cons hd tl =>
        simp only [level2Block, Node.children, Node.item, List.isEmpty_cons,
          Bool.false_eq_true, if_false]
        exact ((level3Block_sub l3 p hpl3).trans
          (sublist_flatMap_of_mem hl32 level3Block)).trans (List.sublist_append_right _ _)

theorem rootBlock_sub (r p : Node) (hp : p ∈ allNodesN r) :
    List.Sublist (childBlock p) (rootBlock r) := by
  cases r with
  | mk it cs =>
    rcases mem_allNodesN_cases hp with rfl | ⟨l2, hl2, hpl2⟩
    · simp only [childBlock, Node.children, Node.item, rootBlock]
      exact ((List.sublist_cons_self _ _).trans (List.sublist_append_left _ _))
    · have hl22 : l2 ∈ cs := by simpa [Node.children] using hl2
      simp only [rootBlock, Node.children, Node.item]
      exact ((level2Block_sub l2 p hpl2).trans
        (sublist_flatMap_of_mem hl22 level2Block)).trans (List.sublist_append_right _ _)

theorem top_sub {F : List Node} {p : Node} (hp : p ∈ allNodesF F) :
    List.Sublist (childBlock p) (write_hierarchy_ordered F) := by
  obtain ⟨r, hr, hpr⟩ := mem_allNodesF_cases hp
  unfold write_hierarchy_ordered
  exact (rootBlock_sub r p hpr).trans (sublist_flatMap_of_mem hr rootBlock)

/-! The component lines of the output are, up to the interleaving of the
level 4 loop, exactly the child blocks of all nodes of the forest. -/

mutual
theorem wd_filter : ∀ (n : Node),
    (write_deeper_levels n).filter Row.isComp = (allNodesN n).flatMap childBlock
  | .mk it cs => by
    cases cs with
    | nil =>
      simp [write_deeper_levels, allNodesN, allNodesF, childBlock, Node.children,
        Node.item, compRowsFrom]
    | cons hd tl =>
      simp only [write_deeper_levels, List.isEmpty_cons, Bool.false_eq_true, if_false]
      rw [List.filter_append, List.filter_cons_of_neg (by simp [isComp_headerRow]),
        compRowsFrom_filter, dl_filter (hd :: tl)]
      have hall : allNodesN (Node.mk it (hd :: tl))
          = Node.mk it (hd :: tl) :: allNodesF (hd :: tl) := rfl
      have hcb : childBlock (Node.mk it (hd :: tl)) = compRowsFrom it 10 (hd :: tl) := rfl
      rw [hall, List.flatMap_cons, hcb]
theorem dl_filter : ∀ (l : List Node),
    (deeperList l).filter Row.isComp = (allNodesF l).flatMap childBlock
  | [] => rfl
  | c :: cs => by
    simp only [deeperList, List.filter_append, allNodesF, List.flatMap_append]
    rw [wd_filter c, dl_filter cs]
end

theorem perm_flatMap_congr {α β : Type} :
    ∀ (l : List α) (f g : α → List β), (∀ a, a ∈ l → List.Perm (f a) (g a)) →
      List.Perm (l.flatMap f) (l.flatMap g)
  | [], f, g, _ => List.Perm.refl _
  | a :: l, f, g, h => by
    simp only [List.flatMap_cons]
    exact (h a (List.mem_cons_self a l)).append
      (perm_flatMap_congr l f g (fun b hb => h b (List.mem_cons_of_mem a hb)))

theorem level4Seq_filter_perm (p : Item) :
    ∀ (cs : List Node) (num : Nat),
      List.Perm ((level4Seq p num cs).filter Row.isComp)
        (compRowsFrom p num cs ++ (allNodesF cs).flatMap childBlock)
  | [], num => by simp [level4Seq, compRowsFrom, allNodesF]
  | c :: cs, num => by
    simp only [level4Seq, compRowsFrom]
    rw [List.filter_cons_of_pos (by simp [isComp_compRow]), List.filter_append, wd_filter c]
    have hall : allNodesF (c :: cs) = allNodesN c ++ allNodesF cs := rfl
    rw [hall, List.flatMap_append, List.cons_append]
    refine List.Perm.cons _ ?_
    refine List.Perm.trans
      (List.Perm.append_left _ (level4Seq_filter_perm p cs (num + 10))) ?_
    rw [← List.append_assoc, ← List.append_assoc]
    exact List.Perm.append_right _ List.perm_append_comm

theorem level3Block_filter_perm (l3 : Node) :
    List.Perm ((level3Block l3).filter Row.isComp) ((allNodesN l3).flatMap childBlock) := by
  cases l3 with
  | mk it cs =>
    cases cs with
    | nil =>
      simp [level3Block, allNodesN, allNodesF, childBlock, Node.children, Node.item,
        compRowsFrom]
    | cons hd tl =>
      simp only [level3Block, Node.children, Node.item, List.isEmpty_cons,
        Bool.false_eq_true, if_false]
      rw [List.filter_cons_of_neg (by simp [isComp_headerRow])]
      have hall : allNodesN (Node.mk it (hd :: tl))
          = Node.mk it (hd :: tl) :: allNodesF (hd :: tl) := rfl
      have hcb : childBlock (Node.mk it (hd :: tl)) = compRowsFrom it 10 (hd :: tl) := rfl
      rw [hall, List.flatMap_cons, hcb]
      exact level4Seq_filter_perm it (hd :: tl) 10

theorem level2Block_filter_perm (l2 : Node) :
    List.Perm ((level2Block l2).filter Row.isComp) ((allNodesN l2).flatMap childBlock) := by
  cases l2 with
  | mk it cs =>
    cases cs with
    | nil =>
      simp [level2Block, allNodesN, allNodesF, childBlock, Node.children, Node.item,
        compRowsFrom]
    | cons hd tl =>
      simp only [level2Block, Node.children, Node.item, List.isEmpty_cons,
        Bool.false_eq_true, if_false]
      rw [List.filter_append, List.filter_cons_of_neg (by simp [isComp_headerRow]),
        compRowsFrom_filter, List.filter_flatMap]
      have hcb : childBlock (Node.mk it (hd :: tl)) = compRowsFrom it 10 (hd :: tl) := rfl
      have hr : (allNodesN (Node.mk it (hd :: tl))).flatMap childBlock
          = compRowsFrom it 10 (hd :: tl) ++ (allNodesF (hd :: tl)).flatMap childBlock := by
        have hall : allNodesN (Node.mk it (hd :: tl))
            = Node.mk it (hd :: tl) :: allNodesF (hd :: tl) := rfl
        rw [hall, List.flatMap_cons, hcb]
      rw [hr]
      refine List.Perm.append_left _ ?_
      refine List.Perm.trans (perm_flatMap_congr (hd :: tl) _ _
        (fun a _ => level3Block_filter_perm a)) ?_
      rw [allNodesF_eq, List.flatMap_assoc]

theorem rootBlock_filter_perm (r : Node) :
    List.Perm ((rootBlock r).filter Row.isComp) ((allNodesN r).flatMap childBlock) := by
  cases r with
  | mk it cs =>
    simp only [rootBlock, Node.children, Node.item]
    rw [List.filter_append, List.filter_cons_of_neg (by simp [isComp_headerRow]),
      compRowsFrom_filter, List.filter_flatMap]
    have hall : allNodesN (Node.mk it cs) = Node.mk it cs :: allNodesF cs := rfl
    have hcb : childBlock (Node.mk it cs) = compRowsFrom it 10 cs := rfl
    rw [hall, List.flatMap_cons, hcb]
    refine List.Perm.append_left _ ?_
    refine List.Perm.trans (perm_flatMap_congr cs _ _
      (fun a _ => level2Block_filter_perm a)) ?_
    rw [allNodesF_eq, List.flatMap_assoc]

theorem top_filter_perm (F : List Node) :
    List.Perm ((write_hierarchy_ordered F).filter Row.isComp)
      ((allNodesF F).flatMap childBlock) := by
  unfold write_hierarchy_ordered
  rw [List.filter_flatMap, allNodesF_eq, List.flatMap_assoc]
  exact perm_flatMap_congr F _ _ (fun r _ => rootBlock_filter_perm r)

/-! Decimal rendering and parsing lemmas for the extraction claims. -/

theorem natDigitsF_congr :
    ∀ (m n f1 f2 : Nat), n ≤ m → n < f1 → n < f2 → natDigitsF f1 n = natDigitsF f2 n := by
  intro m
  induction m with
  | zero =>
    intro n f1 f2 hm h1 h2
    cases f1 with
    | zero => omega
    | succ a =>
      cases f2 with
      | zero => omega
      | succ b =>
        have hn : n = 0 := by omega
        subst hn
        simp [natDigitsF]
  | succ m ih =>
    intro n f1 f2 hm h1 h2
    cases f1 with
    | zero => omega
    | succ a =>
      cases f2 with
      | zero => omega
      | succ b =>
        by_cases h10 : n < 10
        · simp [natDigitsF, h10]
        · simp only [natDigitsF, if_neg h10]
          have hd : n / 10 < n := Nat.div_lt_self (by omega) (by omega)
          rw [ih (n / 10) a b (by omega) (by omega) (by omega)]

theorem natDigitsF_eq (n : Nat) :
    natDigitsF (n + 1) n =
      if n < 10 then [Nat.digitChar n]
      else natDigitsF (n / 10 + 1) (n / 10) ++ [Nat.digitChar (n % 10)] := by
  have hunf : natDigitsF (n + 1) n
      = if n < 10 then [Nat.digitChar n]
        else natDigitsF n (n / 10) ++ [Nat.digitChar (n % 10)] := rfl
  rw [hunf]
  by_cases h10 : n < 10
  · rw [if_pos h10, if_pos h10]
  · rw [if_neg h10, if_neg h10]
    have hd : n / 10 < n := Nat.div_lt_self (by omega) (by omega)
    rw [natDigitsF_congr (n / 10) (n / 10) n (n / 10 + 1) (by omega) (by omega) (by omega)]

theorem digitChar_isDigit {d : Nat} (h : d < 10) : (Nat.digitChar d).isDigit = true := by
  interval_cases d <;> decide

theorem digitVal_digitChar {d : Nat} (h : d < 10) : digitVal (Nat.digitChar d) = d := by
  interval_cases d <;> decide

theorem natDigitsF_all_digits_aux :
    ∀ (m n : Nat), n ≤ m → ∀ c ∈ natDigitsF (n + 1) n, c.isDigit = true := by
  intro m
  induction m with
  | zero =>
    intro n hm c hc
    have hn : n = 0 := by omega
    subst hn
    have h0 : natDigitsF 1 0 = ['0'] := rfl
    rw [h0] at hc
    simp only [List.mem_singleton] at hc
    subst hc
    decide
  | succ m ih =>
    intro n hm c hc
    rw [natDigitsF_eq] at hc
    by_cases h10 : n < 10
    · rw [if_pos h10] at hc
      simp only [List.mem_singleton] at hc
      subst hc
      exact digitChar_isDigit h10
    · rw [if_neg h10] at hc
      have hd : n / 10 < n := Nat.div_lt_self (by omega) (by omega)
      simp only [List.mem_append, List.mem_singleton] at hc
      rcases hc with hc | hc
      · exact ih (n / 10) (by omega) c hc
      · subst hc
        exact digitChar_isDigit (Nat.mod_lt _ (by omega))

theorem natStr_all_digits (n : Nat) : ∀ c ∈ (natStr n).data, c.isDigit = true := by
  intro c hc
  exact natDigitsF_all_digits_aux n n (by omega) c hc

theorem natDigitsF_ne_nil (n : Nat) : natDigitsF (n + 1) n ≠ [] := by
  rw [natDigitsF_eq]
  by_cases h10 : n < 10
  · simp [h10]
  · simp [h10]

theorem parseDigits_append_one (l : List Char) (c : Char) :
    parseDigits (l ++ [c]) = parseDigits l * 10 + digitVal c := by
  simp [parseDigits, List.foldl_append]

theorem parseDigits_natDigits_aux :
    ∀ (m n : Nat), n ≤ m → parseDigits (natDigitsF (n + 1) n) = n := by
  intro m
  induction m with
  | zero =>
    intro n hm
    have hn : n = 0 := by omega
    subst hn
    decide
  | succ m ih =>
    intro n hm
    rw [natDigitsF_eq]
    by_cases h10 : n < 10
    · rw [if_pos h10]
      have h1 : parseDigits [Nat.digitChar n] = digitVal (Nat.digitChar n) := by
        simp [parseDigits]
      rw [h1]
      exact digitVal_digitChar h10
    · rw [if_neg h10, parseDigits_append_one]
      have hd : n / 10 < n := Nat.div_lt_self (by omega) (by omega)
      rw [ih (n / 10) (by omega)]
      rw [digitVal_digitChar (Nat.mod_lt _ (by omega))]
      omega

theorem parseDigits_natStr (n : Nat) : parseDigits (natStr n).data = n :=
  parseDigits_natDigits_aux n n (by omega)

/-! Lemmas about the first digit run scanner. -/

theorem takeWhile_of_all {α : Type} (p : α → Bool) :
    ∀ (l : List α), (∀ c ∈ l, p c = true) → l.takeWhile p = l
  | [], _ => rfl
  | c :: cs, h => by
    rw [List.takeWhile_cons, if_pos (h c (List.mem_cons_self c cs))]
    rw [takeWhile_of_all p cs (fun x hx => h x (List.mem_cons_of_mem c hx))]

theorem takeWhile_append_first {α : Type} (p : α → Bool) :
    ∀ (xs ys : List α), (∀ c ∈ xs, p c = true) → (∀ c ∈ ys.take 1, p c = false) →
      (xs ++ ys).takeWhile p = xs
  | [], ys, _, hy => by
    cases ys with
    | nil => rfl
    | cons r rs =>
      simp only [List.nil_append, List.takeWhile_cons]
      rw [if_neg (by simp [hy r (by simp)])]
  | x :: xs, ys, hx, hy => by
    simp only [List.cons_append, List.takeWhile_cons]
    rw [if_pos (hx x (List.mem_cons_self x xs))]
    rw [takeWhile_append_first p xs ys (fun c hc => hx c (List.mem_cons_of_mem x hc)) hy]

theorem firstRun_all_digits {l : List Char} (hne : l ≠ [])
    (hall : ∀ c ∈ l, c.isDigit = true) : firstRun l = some l := by
  cases l with
  | nil => exact absurd rfl hne
  | cons c cs =>
    have hc := hall c (List.mem_cons_self c cs)
    simp only [firstRun, hc, if_pos]
    rw [takeWhile_of_all Char.isDigit cs (fun x hx => hall x (List.mem_cons_of_mem c hx))]

theorem firstRun_of_no_digit :
    ∀ (l : List Char), (∀ c ∈ l, c.isDigit = false) → firstRun l = none
  | [], _ => rfl
  | c :: cs, h => by
    simp only [firstRun]
    rw [if_neg (by simp [h c (List.mem_cons_self c cs)])]
    exact firstRun_of_no_digit cs (fun x hx => h x (List.mem_cons_of_mem c hx))

theorem firstRun_decomp :
    ∀ (pre run rest : List Char), (∀ c ∈ pre, c.isDigit = false) → run ≠ [] →
      (∀ c ∈ run, c.isDigit = true) → (∀ c ∈ rest.take 1, c.isDigit = false) →
      firstRun (pre ++ run ++ rest) = some run
  | [], run, rest, _, hne, hrall, hrest => by
    cases run with
    | nil => exact absurd rfl hne
    | cons c cs =>
      simp only [List.nil_append, List.cons_append, firstRun]
      rw [if_pos (hrall c (List.mem_cons_self c cs))]
      show some (c :: List.takeWhile Char.isDigit (cs ++ rest)) = some (c :: cs)
      rw [takeWhile_append_first Char.isDigit cs rest
        (fun x hx => hrall x (List.mem_cons_of_mem c hx)) hrest]
  | c :: pre, run, rest, hpre, hne, hrall, hrest => by
    simp only [List.cons_append, firstRun]
    rw [if_neg (by simp [hpre c (List.mem_cons_self c pre)])]
    exact firstRun_decomp pre run rest
      (fun x hx => hpre x (List.mem_cons_of_mem c hx)) hne hrall hrest

/-! Uppercasing lemmas for the unit claim. -/

theorem toNat_ofNat_valid {m : Nat} (h : m < 55296) : (Char.ofNat m).toNat = m := by
  unfold Char.ofNat
  rw [dif_pos (Or.inl h)]
  simp [Char.ofNatAux, Char.toNat, UInt32.toNat]

theorem isLower_iff (c : Char) : c.isLower = true ↔ 97 ≤ c.toNat ∧ c.toNat ≤ 122 := by
  simp [Char.isLower, Char.toNat, UInt32.le_def, BitVec.le_def, UInt32.toNat]

theorem noLower_toUpper (c : Char) : (Char.toUpper c).isLower = false := by
  unfold Char.toUpper
  by_cases h : 97 ≤ c.toNat ∧ c.toNat ≤ 122
  · rw [if_pos h]
    have hv : (Char.ofNat (c.toNat - 32)).toNat = c.toNat - 32 :=
      toNat_ofNat_valid (by omega)
    by_contra hc
    simp only [Bool.not_eq_false] at hc
    have := (isLower_iff _).1 hc
    omega
  · rw [if_neg h]
    by_contra hc
    simp only [Bool.not_eq_false] at hc
    have := (isLower_iff _).1 hc
    exact h this

theorem digit_not_lower {c : Char} (h : c.isDigit = true) : c.isLower = false := by
  by_contra hc
  simp only [Bool.not_eq_false] at hc
  have h1 := (isLower_iff _).1 hc
  simp only [Char.isDigit] at h
  have h2 : 48 ≤ c.toNat ∧ c.toNat ≤ 57 := by
    simpa [UInt32.le_def, BitVec.le_def, UInt32.toNat, Char.toNat] using h
  omega

/-! The claims. -/

/-- Claim C1: for the input level sequence 1, 2, 3, 4, 3, 4, 4 (a branch
restart at the second level 3 record) the builder attaches both level 3
records as siblings under the single level 2 node, and the flattener emits
exactly the row sequence Header(1); Component(1 to 2, 0010); Header(2);
Component(2 to 3a, 0010); Component(2 to 3b, 0020); Header(3a);
Component(3a to 4a, 0010); Header(3b); Component(3b to 4b, 0010);
Component(3b to 4c, 0020), in that order. -/
theorem C1_scenario_b :
    build_hierarchy_structure demoItems =
      [.mk ⟨1, "A001", "ST", "1"⟩
        [.mk ⟨2, "A002", "ST", "2"⟩
          [.mk ⟨3, "A003", "ST", "3"⟩ [.mk ⟨4, "A004", "ST", "4"⟩ []],
           .mk ⟨3, "A005", "ST", "5"⟩
             [.mk ⟨4, "A006", "ST", "6"⟩ [], .mk ⟨4, "A007", "ST", "7"⟩ []]]]] ∧
    write_hierarchy_ordered (build_hierarchy_structure demoItems) =
      [⟨"A001", "", "", "", "", .materialHeader⟩,
       ⟨"A001", "0010", "A002", "2", "ST", .componentLine⟩,
       ⟨"A002", "", "", "", "", .materialHeader⟩,
       ⟨"A002", "0010", "A003", "3", "ST", .componentLine⟩,
       ⟨"A002", "0020", "A005", "5", "ST", .componentLine⟩,
       ⟨"A003", "", "", "", "", .materialHeader⟩,
       ⟨"A003", "0010", "A004", "4", "ST", .componentLine⟩,
       ⟨"A005", "", "", "", "", .materialHeader⟩,
       ⟨"A005", "0010", "A006", "6", "ST", .componentLine⟩,
       ⟨"A005", "0020", "A007", "7", "ST", .componentLine⟩] :=
  ⟨rfl, rfl⟩

/-- Claim C2, divergence witness: for input levels 1, 2, 3, 4, 5, 4 the
writer emits the header of the first level 4 node and the component line of
its level 5 child (rows seven and eight) before the component line of the
second level 4 sibling under the level 3 parent (row nine), because
write_hierarchy_ordered calls write_deeper_levels inside its level 4
component loop.  The sibling component lines of the level 3 node are
therefore not contiguous before the grandchild rows, contradicting the
siblings before grandchildren ordering stated by the claim and by the
docstring of the function itself. -/
theorem C2_level4_interleaving :
    write_hierarchy_ordered (build_hierarchy_structure deepItems) =
      [⟨"B001", "", "", "", "", .materialHeader⟩,
       ⟨"B001", "0010", "B002", "2", "ST", .componentLine⟩,
       ⟨"B002", "", "", "", "", .materialHeader⟩,
       ⟨"B002", "0010", "B003", "3", "ST", .componentLine⟩,
       ⟨"B003", "", "", "", "", .materialHeader⟩,
       ⟨"B003", "0010", "B004", "4", "ST", .componentLine⟩,
       ⟨"B004", "", "", "", "", .materialHeader⟩,
       ⟨"B004", "0010", "B005", "5", "ST", .componentLine⟩,
       ⟨"B003", "0020", "B006", "6", "ST", .componentLine⟩] :=
  rfl

/-- Claim C3: in every output, material header rows carry an empty item
number, every component line row is the line of the child at some position k
under a parent node of the forest carrying the item number which renders as
the zero padded decimal of ten times the successor of k (0010, 0020, 0030,
and so on, restarting at 0010 for every parent), and for every parent node
the component lines of its children with exactly those item numbers appear
in the output in child order (as a sublist). -/
theorem C3_item_numbering (F : List Node) :
    (∀ row ∈ write_hierarchy_ordered F,
      row.kind = RowKind.materialHeader → row.itemNum = "") ∧
    (∀ row ∈ write_hierarchy_ordered F, row.kind = RowKind.componentLine →
      ∃ p k, p ∈ allNodesF F ∧ k < p.children.length ∧
        row = compRow p.item ((p.children.getD k default).item) (10 * (k + 1))) ∧
    (∀ p ∈ allNodesF F, List.Sublist (childBlock p) (write_hierarchy_ordered F)) := by
  refine ⟨?_, ?_, fun p hp => top_sub hp⟩
  · intro row hrow hkind
    rcases top_sound hrow with ⟨r, hr, rfl⟩ | hh | hh
    · rfl
    · obtain ⟨p, hp, hne, rfl⟩ := hh
      rfl
    · obtain ⟨p, k, hp, hk, rfl⟩ := hh
      simp [compRow] at hkind
  · intro row hrow hkind
    rcases top_sound hrow with ⟨r, hr, rfl⟩ | hh | hh
    · simp [headerRow] at hkind
    · obtain ⟨p, hp, hne, rfl⟩ := hh
      simp [headerRow] at hkind
    · obtain ⟨p, k, hp, hk, rfl⟩ := hh
      exact ⟨p, k, hp, hk, rfl⟩

/-- Witness for claim C3 at the scenario input: the header of A001 carries
the empty item number, and the component line of A003 under A002 carries
the item number 0010 arising from child position zero. -/
theorem C3_item_numbering_witness :
    (headerRow ⟨1, "A001", "ST", "1"⟩).itemNum = "" ∧
    ∃ p k, p ∈ allNodesF (build_hierarchy_structure demoItems) ∧
      k < p.children.length ∧
      (⟨"A002", "0010", "A003", "3", "ST", .componentLine⟩ : Row)
        = compRow p.item ((p.children.getD k default).item) (10 * (k + 1)) :=
  ⟨(C3_item_numbering (build_hierarchy_structure demoItems)).1
      (headerRow ⟨1, "A001", "ST", "1"⟩) (by decide) rfl,
   (C3_item_numbering (build_hierarchy_structure demoItems)).2.1
      ⟨"A002", "0010", "A003", "3", "ST", .componentLine⟩ (by decide) rfl⟩

/-- Claim C4, counterexample: a single childless level 1 record produces a
forest with one childless root, and the flattener emits one material header
row for it, not zero rows as the claim states. -/
theorem C4_counterexample :
    build_hierarchy_structure lonelyItems = [Node.mk ⟨1, "A", "ST", "1"⟩ []] ∧
    (Node.mk ⟨1, "A", "ST", "1"⟩ []).children = [] ∧
    write_hierarchy_ordered (build_hierarchy_structure lonelyItems) =
      [⟨"A", "", "", "", "", .materialHeader⟩] :=
  ⟨rfl, rfl, rfl⟩

/-- Claim C4 as amended: a material header row is emitted for a node if and
only if the node has at least one child or is a level 1 root; level 1 roots
get their header unconditionally, so a childless root contributes exactly
one material header row rather than none. -/
theorem C4_amended (F : List Node) :
    (∀ row ∈ write_hierarchy_ordered F, row.kind = RowKind.materialHeader →
      ∃ p, p ∈ allNodesF F ∧ (p.children ≠ [] ∨ p ∈ F) ∧ row = headerRow p.item) ∧
    (∀ p ∈ allNodesF F, p.children ≠ [] →
      headerRow p.item ∈ write_hierarchy_ordered F) ∧
    (∀ r ∈ F, headerRow r.item ∈ write_hierarchy_ordered F) := by
  refine ⟨?_, fun p hp hne => top_hdr hp hne, fun r hr => top_hdr_root hr⟩
  intro row hrow hkind
  rcases top_sound hrow with ⟨r, hr, rfl⟩ | hh | hh
  · exact ⟨r, mem_allNodesF_self hr, Or.inr hr, rfl⟩
  · obtain ⟨p, hp, hne, rfl⟩ := hh
    exact ⟨p, hp, Or.inl hne, rfl⟩
  · obtain ⟨p, k, hp, hk, rfl⟩ := hh
    simp [compRow] at hkind

/-- Witness for the amended claim C4: the childless root of the single
record input receives its material header row in the output. -/
theorem C4_amended_witness :
    headerRow (Node.mk ⟨1, "A", "ST", "1"⟩ []).item
      ∈ write_hierarchy_ordered (build_hierarchy_structure lonelyItems) :=
  (C4_amended (build_hierarchy_structure lonelyItems)).2.2 (Node.mk ⟨1, "A", "ST", "1"⟩ [])
    (by rw [show build_hierarchy_structure lonelyItems
        = [Node.mk ⟨1, "A", "ST", "1"⟩ []] from rfl]
        exact List.mem_cons_self _ _)

/-- Claim C5, counterexample: for input levels 1 and 3 the level 3 record B
has no open ancestor at level 2; the builder does not raise, but it neither
attaches B under the closest ancestor A nor keeps it as an orphaned root: B
is dropped entirely, the forest is a single childless root A and the output
is one header row in which B never appears, contradicting the part of the
claim that says the record still appears in the output. -/
theorem C5_counterexample :
    build_hierarchy_structure jumpItems = [Node.mk ⟨1, "A", "ST", "1"⟩ []] ∧
    write_hierarchy_ordered (build_hierarchy_structure jumpItems) =
      [⟨"A", "", "", "", "", .materialHeader⟩] ∧
    (∀ row ∈ write_hierarchy_ordered (build_hierarchy_structure jumpItems),
      row.material ≠ "B" ∧ row.component ≠ "B") := by
  refine ⟨rfl, rfl, ?_⟩
  decide

/-- Claim C5 as amended: the builder attaches a record j as a child of a
record i exactly when i precedes j, the level of j is the level of i plus
one, and no record between them has level at most the level of i; a
reachable record is a level 1 root or is attached to such a parent, so a
record whose level jumps past every open ancestor is silently omitted from
the forest (never attached elsewhere, never raised on). -/
theorem C5_amended (items : List Item) (i j : Nat) :
    (j ∈ childrenIdx items i ↔
      i < j ∧ j < items.length ∧
        (itemAt items j).level = (itemAt items i).level + 1 ∧
        ∀ k, i < k → k < j → (itemAt items i).level < (itemAt items k).level) ∧
    (∀ x ∈ reachIdx items, (itemAt items x).level = 1 ∨
      ∃ p, x ∈ childrenIdx items p) := by
  refine ⟨mem_childrenIdx_iff items i j, ?_⟩
  intro x hx
  unfold reachIdx at hx
  obtain ⟨r, hr, hxr⟩ := List.mem_flatMap.1 hx
  by_cases hxe : x = r
  · subst hxe
    exact Or.inl ((mem_rootIdx_iff items x).1 hr).2
  · obtain ⟨p, -, hxp⟩ := subtreeIdx_parent hxr hxe
    exact Or.inr ⟨p, hxp⟩

/-- Witness for the amended claim C5: in the scenario input, record one
(level two) is a child of record zero (level one), which satisfies the
attachment characterisation, and every reachable record of the jump input
is a root or attached. -/
theorem C5_amended_witness :
    (1 ∈ childrenIdx demoItems 0) ∧
    ((itemAt jumpItems 0).level = 1 ∨ ∃ p, 0 ∈ childrenIdx jumpItems p) :=
  ⟨(C5_amended demoItems 0 1).1.2
     ⟨by decide, by decide, by decide, by intro k h1 h2; exact absurd h2 (by omega)⟩,
   (C5_amended jumpItems 0 0).2 0 (by decide)⟩

/-- Claim C6: the extractor derives the level from the level cell by taking
the first run of decimal digits of the textual form of the cell: an integer
cell yields that integer itself, the text Level 2 yields level two, a cell
whose text has a digit run preceded by non digits yields the value of that
first run, and a text with no digits (or a blank cell) makes the row be
skipped (the extractor returns none instead of raising). -/
theorem C6_level_parsing :
    (∀ n : Nat, extract_level (Cell.num n) = some n) ∧
    extract_level (Cell.text "Level 2") = some 2 ∧
    (∀ s : String, (∀ c ∈ s.data, c.isDigit = false) →
      extract_level (Cell.text s) = none) ∧
    extract_level Cell.blank = none ∧
    (∀ (pre run rest : List Char), (∀ c ∈ pre, c.isDigit = false) → run ≠ [] →
      (∀ c ∈ run, c.isDigit = true) → (∀ c ∈ rest.take 1, c.isDigit = false) →
      extract_level (Cell.text ⟨pre ++ run ++ rest⟩) = some (parseDigits run)) := by
  refine ⟨?_, rfl, ?_, rfl, ?_⟩
  · intro n
    show (firstRun (natStr n).data).map parseDigits = some n
    have h1 : firstRun (natStr n).data = some (natStr n).data :=
      firstRun_all_digits (natDigitsF_ne_nil n) (natStr_all_digits n)
    rw [h1]
    show some (parseDigits (natStr n).data) = some n
    rw [parseDigits_natStr]
  · intro s hs
    show (firstRun s.data).map parseDigits = none
    rw [firstRun_of_no_digit s.data hs]
    rfl
  · intro pre run rest hpre hne hrall hrest
    show (firstRun (String.mk (pre ++ run ++ rest)).data).map parseDigits = some (parseDigits run)
    rw [show (String.mk (pre ++ run ++ rest)).data = pre ++ run ++ rest from rfl]
    rw [firstRun_decomp pre run rest hpre hne hrall hrest]
    rfl

/-- Witness for claim C6: an integer cell holding 42 yields level 42, and
the text Lv 7x yields level 7 (first digit run, non digits before and
after). -/
theorem C6_level_parsing_witness :
    extract_level (Cell.num 42) = some 42 ∧
    extract_level (Cell.text ⟨['L', 'v', ' '] ++ ['7'] ++ ['x']⟩)
      = some (parseDigits ['7']) ∧
    extract_level (Cell.text "xyz") = none :=
  ⟨C6_level_parsing.1 42,
   C6_level_parsing.2.2.2.2 ['L', 'v', ' '] ['7'] ['x']
     (by decide) (by decide) (by decide) (by decide),
   C6_level_parsing.2.2.1 "xyz" (by decide)⟩

/-- Claim C7: the identifier extraction renders a blank or absent identifier
cell as the empty string (successfully, not as an error), and renders a cell
holding a whole number as its plain decimal digits, which therefore contain
no decimal point and no exponent letter (123 renders as the string 123 and
never as 123.0). -/
theorem C7_identifier_normalization :
    art_nr_of Cell.blank = some "" ∧
    (∀ n : Nat, art_nr_of (Cell.num n) = some (natStr n) ∧
      (∀ c ∈ (natStr n).data, c.isDigit = true) ∧
      Not ('.' ∈ (natStr n).data) ∧ Not ('e' ∈ (natStr n).data)) ∧
    natStr 123 = "123" := by
  refine ⟨rfl, ?_, rfl⟩
  intro n
  refine ⟨rfl, natStr_all_digits n, ?_, ?_⟩
  · intro hmem
    have h := natStr_all_digits n '.' hmem
    exact absurd h (by decide)
  · intro hmem
    have h := natStr_all_digits n 'e' hmem
    exact absurd h (by decide)

/-- Witness for claim C7: the digits of the rendering of 123 are all decimal
digits. -/
theorem C7_identifier_normalization_witness :
    art_nr_of (Cell.num 123) = some (natStr 123) ∧ ('1').isDigit = true :=
  ⟨(C7_identifier_normalization.2.1 123).1,
   (C7_identifier_normalization.2.1 123).2.1 '1' (by decide)⟩

/-- Claim C8: a record index is the child of at most one parent index, every
child index is strictly larger than its parent index (so the built forest is
acyclic), the component lines of the output correspond one to one (as a
permutation) to the child slots of the reachable record indices, and the
concatenated children lists of the reachable indices contain no index twice,
so each record appears as the component of at most one component line. -/
theorem C8_forest_injectivity (items : List Item) :
    (∀ i1 i2 j : Nat, j ∈ childrenIdx items i1 → j ∈ childrenIdx items i2 → i1 = i2) ∧
    (∀ i j : Nat, j ∈ childrenIdx items i → i < j) ∧
    List.Perm
      ((write_hierarchy_ordered (build_hierarchy_structure items)).filter Row.isComp)
      ((reachIdx items).flatMap (fun i =>
        compRowsFrom (itemAt items i) 10 ((childrenIdx items i).map (bNode items)))) ∧
    ((reachIdx items).flatMap (childrenIdx items)).Nodup := by
  refine ⟨fun i1 i2 j h1 h2 => parent_unique h1 h2,
    fun i j h => childrenIdx_gt h, ?_, childEdges_nodup items⟩
  have h1 := top_filter_perm (build_hierarchy_structure items)
  rw [allNodesF_build, List.flatMap_map] at h1
  have h2 : (reachIdx items).flatMap (fun i => childBlock (bNode items i))
      = (reachIdx items).flatMap (fun i =>
          compRowsFrom (itemAt items i) 10 ((childrenIdx items i).map (bNode items))) := by
    apply List.flatMap_congr
    intro i _
    show compRowsFrom (bNode items i).item 10 (bNode items i).children = _
    rw [bNode_eq]
    simp only [Node.item, Node.children]
  rw [h2] at h1
  exact h1

/-- Witness for claim C8 at the scenario input: record one is a child of
record zero, and the parent index is below the child index. -/
theorem C8_forest_injectivity_witness :
    (1 ∈ childrenIdx demoItems 0) ∧ 0 < 1 ∧
    ((reachIdx demoItems).flatMap (childrenIdx demoItems)).Nodup :=
  ⟨by decide, (C8_forest_injectivity demoItems).2.1 0 1 (by decide),
   (C8_forest_injectivity demoItems).2.2.2⟩

/-- Claim C9: an input with no level 1 record at all (the empty input
included) builds an empty forest, and the flattener then produces an empty
row sequence; both functions return normally. -/
theorem C9_no_roots (items : List Item) (h : ∀ it ∈ items, it.level ≠ 1) :
    build_hierarchy_structure items = [] ∧
    write_hierarchy_ordered (build_hierarchy_structure items) = [] := by
  have hroot : rootIdx items = [] := by
    unfold rootIdx
    rw [List.filter_eq_nil_iff]
    intro i hi
    have hil : i < items.length := List.mem_range.1 hi
    have hmem : itemAt items i ∈ items := by
      unfold itemAt
      rw [List.getD_eq_getElem items default hil]
      exact List.getElem_mem hil
    simpa using h (itemAt items i) hmem
  have hb : build_hierarchy_structure items = [] := by
    unfold build_hierarchy_structure
    rw [hroot]
    rfl
  exact ⟨hb, by rw [hb]; rfl⟩

/-- Witness for claim C9: a single level 2 record yields the empty forest
and the empty output. -/
theorem C9_no_roots_witness :
    build_hierarchy_structure [⟨2, "X", "ST", "1"⟩] = [] ∧
    write_hierarchy_ordered (build_hierarchy_structure [⟨2, "X", "ST", "1"⟩]) = [] :=
  C9_no_roots [⟨2, "X", "ST", "1"⟩] (by decide)

/-- Claim C10: the unit extraction maps a blank cell to the empty string and
a text cell to its uppercased text, and therefore, whenever every record
carries a unit produced by the unit extraction, no character of the unit
field of any output row is a lowercase letter (headers carry the empty unit,
component lines carry the uppercased unit of the child record). -/
theorem C10_unit_uppercase :
    (unit_of Cell.blank = "" ∧ ∀ s : String, unit_of (Cell.text s) = upperStr s) ∧
    (∀ items : List Item, (∀ it ∈ items, ∃ c : Cell, it.unit = unit_of c) →
      ∀ row ∈ write_hierarchy_ordered (build_hierarchy_structure items),
        ∀ ch ∈ row.unit.data, ch.isLower = false) := by
  refine ⟨⟨rfl, fun s => rfl⟩, ?_⟩
  intro items hext row hrow ch hch
  have hunit : row.unit = "" ∨ ∃ it, it ∈ items ∧ row.unit = it.unit := by
    rcases top_sound hrow with ⟨r, hr, rfl⟩ | hh | hh
    · left
      rfl
    · obtain ⟨p, hp, hne, rfl⟩ := hh
      left
      rfl
    · obtain ⟨p, k, hp, hk, rfl⟩ := hh
      right
      rw [allNodesF_build] at hp
      obtain ⟨i, hi, rfl⟩ := List.mem_map.1 hp
      have hkl : k < ((childrenIdx items i).map (bNode items)).length := by
        rw [bNode_eq] at hk
        simpa [Node.children] using hk
      have hkl2 : k < (childrenIdx items i).length := by simpa using hkl
      have hchild : (bNode items i).children.getD k default
          = bNode items ((childrenIdx items i).getD k 0) := by
        rw [bNode_eq]
        simp only [Node.children]
        rw [List.getD_eq_getElem _ _ hkl, List.getElem_map,
          List.getD_eq_getElem _ _ hkl2]
      have hj : (childrenIdx items i).getD k 0 ∈ childrenIdx items i := by
        rw [List.getD_eq_getElem _ _ hkl2]
        exact List.getElem_mem hkl2
      have hjl := childrenIdx_lt_length hj
      refine ⟨itemAt items ((childrenIdx items i).getD k 0), ?_, ?_⟩
      · unfold itemAt
        rw [List.getD_eq_getElem items default hjl]
        exact List.getElem_mem hjl
      · show (compRow (bNode items i).item
            (((bNode items i).children.getD k default).item) (10 * (k + 1))).unit = _
        rw [hchild]
        show (bNode items ((childrenIdx items i).getD k 0)).item.unit = _
        rw [bNode_eq]
        simp only [Node.item]
  rcases hunit with hu | ⟨it, hit, hu⟩
  · rw [hu] at hch
    simp at hch
  · obtain ⟨c, hc⟩ := hext it hit
    rw [hu, hc] at hch
    cases c with
    | blank => simp [unit_of] at hch
    | num n =>
      have hd := natStr_all_digits n ch hch
      exact digit_not_lower hd
    | text s =>
      simp only [unit_of, upperStr] at hch
      obtain ⟨c0, -, rfl⟩ := List.mem_map.1 hch
      exact noLower_toUpper c0

/-- Witness for claim C10: with a record whose unit KG was produced by
uppercasing the text kg, the character K of the component line unit is not
lowercase. -/
theorem C10_unit_uppercase_witness : ('K').isLower = false :=
  C10_unit_uppercase.2 [⟨1, "A", "KG", "1"⟩, ⟨2, "B", "KG", "2"⟩]
    (by
      intro it hit
      rcases List.mem_cons.1 hit with rfl | hit2
      · exact ⟨Cell.text "kg", rfl⟩
      · rcases List.mem_cons.1 hit2 with rfl | hit3
        · exact ⟨Cell.text "kg", rfl⟩
        · simp at hit3)
    ⟨"A", "0010", "B", "2", "KG", .componentLine⟩ (by decide) 'K' (by decide)

end SAP
